import Mathlib

/-!
Verification of the overlap-graph genome assembler in `strands_graph.py`.

The embedding models:
* `Base` / `Strand` — the {A,C,G,T} alphabet and read sequences;
* `TrieNode` with `insertStrand` and `search` — the approximate prefix index
  (class `TrieNode`, methods `insert_strand` and `search`);
* `Vertex` / `Graph` with `Graph.loadFromStrands` and
  `Graph.getSequencedResult` — the overlap graph builder and the assembler.

Python `Vertex` objects are compared by identity; the model gives each created
vertex a numeric id (`vid`) allocated from a counter, and the trie stores ids.
`vertex.sequence` is assigned by `load_from_strands` right after a successful
insertion, so the graph records the pair (id, full read string).
-/

namespace GA

/-- Alphabet of the four DNA bases handled by the trie's child slots A/C/G/T. -/
inductive Base : Type where
  | A : Base
  | C : Base
  | G : Base
  | T : Base
deriving DecidableEq, Repr

/-- A read (or query) sequence, a Python string over ACGT. -/
abbrev Strand := List Base

/-- Number of positions at which two strands of equal length differ
(positions beyond the shorter strand are ignored). -/
def hamming : Strand → Strand → Nat
  | a :: as, b :: bs => (if a = b then 0 else 1) + hamming as bs
  | _, _ => 0

/-- A trie node (`TrieNode` in the source): four child slots, a pass count and
an optional anchored vertex (`extra`).  `nil` models a Python `None` child. -/
inductive TrieNode : Type where
  | nil : TrieNode
  | node (a c g t : TrieNode) (count : Nat) (extra : Option Nat) : TrieNode
deriving DecidableEq, Repr

/-- Child slot selected by a base, modelling `getattr(self, char)`;
`nil` stands for a missing child. -/
def TrieNode.child : TrieNode → Base → TrieNode
  | .nil, _ => .nil
  | .node a _ _ _ _ _, .A => a
  | .node _ c _ _ _ _, .C => c
  | .node _ _ g _ _ _, .G => g
  | .node _ _ _ t _ _, .T => t

/-- Replace one child slot, modelling `setattr(current, c, next_node)`. -/
def TrieNode.setChild : TrieNode → Base → TrieNode → TrieNode
  | .nil, _, _ => .nil
  | .node _ c g t cnt ex, .A, n => .node n c g t cnt ex
  | .node a _ g t cnt ex, .C, n => .node a n g t cnt ex
  | .node a c _ t cnt ex, .G, n => .node a c n t cnt ex
  | .node a c g _ cnt ex, .T, n => .node a c g n cnt ex

/-- The `extra` back-reference of a node (`none` for an absent node). -/
def TrieNode.extraOf : TrieNode → Option Nat
  | .nil => none
  | .node _ _ _ _ _ ex => ex

/-- The chain of fresh nodes built by the non-recursive branch of
`insert_strand`: `for c in strand: next_node = TrieNode(extra, 1); ...`.
`chain e rest` is the node attached after the branching character, whose
descendants spell `rest` and all carry the vertex id `e`. -/
def chain (e : Nat) : Strand → TrieNode
  | [] => .node .nil .nil .nil .nil 1 (some e)
  | b :: rest => (TrieNode.node .nil .nil .nil .nil 1 (some e)).setChild b (chain e rest)

/-- Model of `TrieNode.insert_strand(strand, extra, new_extra)`.  Returns the
updated node, the vertex returned to the caller (`None` when the strand mapped
onto an already-known position) and the updated allocation counter.  A Python
`Vertex(strand)` allocation is modelled by taking the current counter value as
the new id; after the `if self.extra is None` block the node's extra is always
set, so it is carried as a plain `Nat`. -/
def TrieNode.insertStrand : TrieNode → Strand → Option Nat → Bool → Nat → TrieNode × Option Nat × Nat
  | .nil, _, _, _, fresh => (.nil, none, fresh)
  | .node a c g t cnt ext, strand, extra, newExtra, fresh =>
    let st : Nat × Bool × Nat :=
      match ext with
      | some v => (v, newExtra, fresh)
      | none =>
        match extra with
        | some v => (v, true, fresh)
        | none => (fresh, true, fresh + 1)
    match st with
    | (e2, newExtra2, fresh2) =>
      match strand with
      | [] => (.node a c g t (cnt + 1) (some e2), if newExtra2 then some e2 else none, fresh2)
      | ch :: rest =>
        match (TrieNode.node a c g t cnt ext).child ch with
        | .nil =>
          let e3 := if newExtra2 then e2 else fresh2
          let fresh3 := if newExtra2 then fresh2 else fresh2 + 1
          ((TrieNode.node a c g t (cnt + 1) (some e2)).setChild ch (chain e3 rest), some e3, fresh3)
        | .node a' c' g' t' cnt' ext' =>
          match TrieNode.insertStrand (.node a' c' g' t' cnt' ext') rest
              (if newExtra2 then some e2 else none) newExtra2 fresh2 with
          | (t2, res, fr) =>
            ((TrieNode.node a c g t (cnt + 1) (some e2)).setChild ch t2, res, fr)

/-- Exact-descent lookup: `search` with `allow_mis_matches == 0`.  Walking off
the trie returns `None`; exhausting the query returns the node's extra. -/
def searchExact : TrieNode → Strand → Option Nat
  | t, [] => t.extraOf
  | t, b :: rest =>
    match t.child b with
    | .nil => none
    | .node a c g tt cnt ex => searchExact (.node a c g tt cnt ex) rest

/-- One mismatch level of `search`: exact descent, and on a missing child try
the four substituted continuations in A,C,G,T order via the search with one
fewer mismatch (`lower`), returning the first hit. -/
def searchStep (lower : TrieNode → Strand → Option Nat) : TrieNode → Strand → Option Nat
  | t, [] => t.extraOf
  | t, b :: rest =>
    match t.child b with
    | .node a c g tt cnt ex => searchStep lower (.node a c g tt cnt ex) rest
    | .nil =>
      match lower t (Base.A :: rest) with
      | some e => some e
      | none =>
        match lower t (Base.C :: rest) with
        | some e => some e
        | none =>
          match lower t (Base.G :: rest) with
          | some e => some e
          | none => lower t (Base.T :: rest)

/-- Mismatch-budget-indexed search; structural in the budget so that it can be
evaluated by the kernel. -/
def searchN : Nat → TrieNode → Strand → Option Nat
  | 0 => searchExact
  | m + 1 => searchStep (searchN m)

/-- Model of `TrieNode.search(strand, allow_mis_matches)`. -/
def TrieNode.search (t : TrieNode) (strand : Strand) (allowMisMatches : Nat) : Option Nat :=
  searchN allowMisMatches t strand

/-- Whether the trie contains the full descent path spelled by a strand. -/
def hasPath : TrieNode → Strand → Bool
  | .nil, _ => false
  | .node _ _ _ _ _ _, [] => true
  | t, b :: rest => hasPath (t.child b) rest

/-- A graph vertex (class `Vertex`): the read it represents plus its outgoing
edges `connected_vertices`, each a pair (target vertex id, overlap length).
`vid` models Python object identity. -/
structure Vertex : Type where
  vid : Nat
  sequence : Strand
  connectedVertices : List (Nat × Nat)
deriving DecidableEq, Repr

/-- The overlap graph (class `Graph`): its insertion-ordered vertex set. -/
structure Graph : Type where
  vertices : List Vertex
deriving DecidableEq, Repr

/-- The empty root node `TrieNode()` created by `load_from_strands`. -/
def initTrie : TrieNode := .node .nil .nil .nil .nil 0 none

/-- One step of the insertion phase of `load_from_strands`: insert a strand,
and if a vertex was created, set its sequence to the strand and register it. -/
def phase1Step : TrieNode × List (Nat × Strand) × Nat → Strand → TrieNode × List (Nat × Strand) × Nat
  | (t, regs, fresh), strand =>
    match TrieNode.insertStrand t strand none false fresh with
    | (t', res, fr) =>
      match res with
      | some v => (t', regs ++ [(v, strand)], fr)
      | none => (t', regs, fr)

/-- The insertion phase of `load_from_strands`: fold all reads into a fresh
trie, collecting the registered (id, sequence) pairs in insertion order. -/
def phase1 (strands : List Strand) : TrieNode × List (Nat × Strand) × Nat :=
  strands.foldl phase1Step (initTrie, [], 0)

/-- The trie built by `load_from_strands` for a given read collection. -/
def trieOf (strands : List Strand) : TrieNode := (phase1 strands).1

/-- The registered (vertex id, sequence) pairs, in insertion order. -/
def regsOf (strands : List Strand) : List (Nat × Strand) := (phase1 strands).2.1

/-- Sequence registered for a vertex id, the id-to-read mapping induced by
`vertex.sequence = strand` in `load_from_strands`. -/
def lookupId (v : Nat) : List (Nat × Strand) → Option Strand
  | [] => none
  | p :: rest => if p.1 = v then some p.2 else lookupId v rest

/-- Floor of the base-4 logarithm, modelling Python `int(math.log(n, 4))`
(CPython evaluates the latter in floating point; the two agree on every
input exercised below, and wherever the logarithm is exactly representable). -/
def log4Aux : Nat → Nat → Nat
  | 0, _ => 0
  | fuel + 1, n => if n < 4 then 0 else log4Aux fuel (n / 4) + 1

/-- Floor of the base-4 logarithm (see `log4Aux`). -/
def log4floor (n : Nat) : Nat := log4Aux n n

/-- The list `[a, a+1, ..., a+n-1]`, modelling Python `range(a, a+n)`. -/
def offsetList (a : Nat) : Nat → List Nat
  | 0 => []
  | n + 1 => a :: offsetList (a + 1) n

/-- The suffix-offset scan of `load_from_strands`: try each offset in order,
search the trie for the suffix at that offset, and take the first hit that is
not the vertex itself as the single outgoing edge (overlap `len - i`). -/
def findFirstEdge (t : TrieNode) (m vid : Nat) (seq : Strand) : List Nat → Option (Nat × Nat)
  | [] => none
  | i :: is =>
    match TrieNode.search t (seq.drop i) m with
    | some w => if w ≠ vid then some (w, seq.length - i) else findFirstEdge t m vid seq is
    | none => findFirstEdge t m vid seq is

/-- Model of `Graph.load_from_strands(strands, allow_mis_matches)`: insert all
reads, then give each registered vertex its (at most one) outgoing edge found
by scanning suffix offsets `range(1, len(seq) - 2 * int(log4(len(strands))))`. -/
def Graph.loadFromStrands (strands : List Strand) (allowMisMatches : Nat) : Graph :=
  match phase1 strands with
  | (t, regs, _) =>
    ⟨regs.map fun p =>
      ⟨p.1, p.2,
        (findFirstEdge t allowMisMatches p.1 p.2
          (offsetList 1 (p.2.length - 2 * log4floor strands.length - 1))).toList⟩⟩

/-- Sum of the overlap lengths of all edges pointing at a vertex id, the
`incoming_links_values` table of `get_sequenced_result`. -/
def Graph.incoming (g : Graph) (vid : Nat) : Nat :=
  g.vertices.foldl
    (fun acc v =>
      v.connectedVertices.foldl (fun a e => if e.1 = vid then a + e.2 else a) acc) 0

/-- Vertex lookup by id, modelling following a Python object reference. -/
def Graph.findVertex (g : Graph) (vid : Nat) : Option Vertex :=
  g.vertices.find? fun v => v.vid = vid

/-- The greedy walk of `get_sequenced_result`: while the current vertex has an
edge, the overlap meets the minimum and steps remain (fuel counts the steps
left out of `len(self.vertices)`), append the target's sequence past the
overlap and advance. -/
def walkFrom (g : Graph) (minOverlap : Nat) : Nat → Vertex → Strand → Strand
  | 0, _, seqAcc => seqAcc
  | fuel + 1, cur, seqAcc =>
    match cur.connectedVertices with
    | [] => seqAcc
    | (tid, ov) :: _ =>
      if ov < minOverlap then seqAcc
      else
        match g.findVertex tid with
        | none => seqAcc
        | some nxt => walkFrom g minOverlap fuel nxt (seqAcc ++ nxt.sequence.drop ov)

/-- The loop body of `get_sequenced_result`: skip origins whose incoming
weight exceeds the ceiling (`continue`), otherwise walk from the origin and
keep the accumulated sequence when it is strictly longer than the best so
far. -/
def gsrStep (g : Graph) (minOverlap inComingLinksMin : Nat) : Strand → Vertex → Strand :=
  fun maxSeq origin =>
    if inComingLinksMin < g.incoming origin.vid then maxSeq
    else
      let s := walkFrom g minOverlap g.vertices.length origin origin.sequence
      if maxSeq.length < s.length then s else maxSeq

/-- Model of `Graph.get_sequenced_result(min_overlap, in_coming_links_min)`:
walk from every vertex whose summed incoming weight is within the ceiling and
keep the longest accumulated sequence. -/
def Graph.getSequencedResult (g : Graph) (minOverlap inComingLinksMin : Nat) : Strand :=
  g.vertices.foldl (gsrStep g minOverlap inComingLinksMin) []

/-- Modelled from the spec (for comparison with the code's window): the spec
describes the suffix-offset scan as trying offsets 1 through
`len(sequence) - 2 * log4(number of reads)` — an inclusive upper end.  This
definition follows the spec's words; the code's scan (`Graph.loadFromStrands`)
stops one offset earlier. -/
def specFindEdge (t : TrieNode) (m vid : Nat) (seq : Strand) (numReads : Nat) :
    Option (Nat × Nat) :=
  findFirstEdge t m vid seq (offsetList 1 (seq.length - 2 * log4floor numReads))

/-! ### Well-formedness invariants of tries built by the insertion phase -/

/-- Every anchored vertex id maps to a registered sequence of which the node's
path from the root is a prefix. -/
def WFtrie (seqs : Nat → Option Strand) : TrieNode → Strand → Prop
  | .nil, _ => True
  | .node a c g t _ ex, path =>
    (∀ v, ex = some v → ∃ s, seqs v = some s ∧ path <+: s) ∧
    WFtrie seqs a (path ++ [Base.A]) ∧ WFtrie seqs c (path ++ [Base.C]) ∧
    WFtrie seqs g (path ++ [Base.G]) ∧ WFtrie seqs t (path ++ [Base.T])

/-- Every node of the trie carries an anchored vertex (true for every trie the
insertion phase produces once at least one read has been inserted). -/
def allSome : TrieNode → Prop
  | .nil => True
  | .node a c g t _ ex => ex ≠ none ∧ allSome a ∧ allSome c ∧ allSome g ∧ allSome t

/-- Every anchored vertex id is below the allocation counter. -/
def extrasBound : TrieNode → Nat → Prop
  | .nil, _ => True
  | .node a c g t _ ex, n =>
    (∀ v, ex = some v → v < n) ∧ extrasBound a n ∧ extrasBound c n ∧
    extrasBound g n ∧ extrasBound t n

/-! ### Basic lemmas about the trie primitives -/

theorem child_setChild_self (t : TrieNode) (b : Base) (n : TrieNode) (h : t ≠ .nil) :
    (t.setChild b n).child b = n := by
  cases t with
  | nil => exact absurd rfl h
  | node a c g tt cnt ex => cases b <;> rfl

theorem child_setChild_ne (t : TrieNode) (b b' : Base) (n : TrieNode) (hne : b' ≠ b) :
    (t.setChild b n).child b' = t.child b' := by
  cases t with
  | nil => rfl
  | node a c g tt cnt ex => cases b <;> cases b' <;> first | rfl | exact absurd rfl hne

theorem extraOf_setChild (t : TrieNode) (b : Base) (n : TrieNode) :
    (t.setChild b n).extraOf = t.extraOf := by
  cases t with
  | nil => rfl
  | node a c g tt cnt ex => cases b <;> rfl

theorem setChild_ne_nil (a c g tt : TrieNode) (cnt : Nat) (ex : Option Nat) (b : Base)
    (n : TrieNode) : (TrieNode.node a c g tt cnt ex).setChild b n ≠ .nil := by
  cases b <;> simp [TrieNode.setChild]

theorem child_node_count_irrel (a c g tt : TrieNode) (cnt cnt' : Nat) (ex ex' : Option Nat)
    (b : Base) :
    (TrieNode.node a c g tt cnt ex).child b = (TrieNode.node a c g tt cnt' ex').child b := by
  cases b <;> rfl

/-! ### Unfolding lemmas for `search`, matching the recursion of the source -/

theorem search_nil_query (t : TrieNode) (m : Nat) : t.search [] m = t.extraOf := by
  cases m <;> rfl

theorem search_cons_node (t : TrieNode) (b : Base) (rest : Strand) (m : Nat)
    (a c g tt : TrieNode) (cnt : Nat) (ex : Option Nat)
    (h : t.child b = .node a c g tt cnt ex) :
    t.search (b :: rest) m = TrieNode.search (.node a c g tt cnt ex) rest m := by
  cases m with
  | zero =>
    show searchExact t (b :: rest) = _
    rw [searchExact, h]
    rfl
  | succ m =>
    show searchStep (searchN m) t (b :: rest) = _
    rw [searchStep, h]
    rfl

theorem search_stuck_zero (t : TrieNode) (b : Base) (rest : Strand)
    (h : t.child b = .nil) : t.search (b :: rest) 0 = none := by
  show searchExact t (b :: rest) = none
  rw [searchExact, h]

theorem search_stuck_succ (t : TrieNode) (b : Base) (rest : Strand) (m : Nat)
    (h : t.child b = .nil) :
    t.search (b :: rest) (m + 1) =
      (match t.search (Base.A :: rest) m with
       | some e => some e
       | none =>
         match t.search (Base.C :: rest) m with
         | some e => some e
         | none =>
           match t.search (Base.G :: rest) m with
           | some e => some e
           | none => t.search (Base.T :: rest) m) := by
  show searchStep (searchN m) t (b :: rest) = _
  rw [searchStep, h]
  rfl

/-- Search only inspects children and extras, never counts: two nodes with the
same child slots and the same extra are searched identically. -/
theorem search_congr (t₁ t₂ : TrieNode) (hch : ∀ b, t₁.child b = t₂.child b)
    (hex : t₁.extraOf = t₂.extraOf) : ∀ (m : Nat) (p : Strand), t₁.search p m = t₂.search p m := by
  intro m
  induction m with
  | zero =>
    intro p
    cases p with
    | nil => rw [search_nil_query, search_nil_query, hex]
    | cons b rest =>
      cases h : t₂.child b with
      | nil =>
        rw [search_stuck_zero t₁ b rest ((hch b).trans h), search_stuck_zero t₂ b rest h]
      | node a c g tt cnt ex =>
        rw [search_cons_node t₁ b rest 0 a c g tt cnt ex ((hch b).trans h),
          search_cons_node t₂ b rest 0 a c g tt cnt ex h]
  | succ m ih =>
    intro p
    cases p with
    | nil => rw [search_nil_query, search_nil_query, hex]
    | cons b rest =>
      cases h : t₂.child b with
      | nil =>
        rw [search_stuck_succ t₁ b rest m ((hch b).trans h), search_stuck_succ t₂ b rest m h]
        rw [ih (Base.A :: rest), ih (Base.C :: rest), ih (Base.G :: rest), ih (Base.T :: rest)]
      | node a c g tt cnt ex =>
        rw [search_cons_node t₁ b rest (m + 1) a c g tt cnt ex ((hch b).trans h),
          search_cons_node t₂ b rest (m + 1) a c g tt cnt ex h]

/-! ### `hasPath` lemmas -/

theorem hasPath_nil_query (t : TrieNode) (h : t ≠ .nil) : hasPath t [] = true := by
  cases t with
  | nil => exact absurd rfl h
  | node a c g tt cnt ex => rfl

theorem hasPath_cons (t : TrieNode) (b : Base) (rest : Strand) (h : t ≠ .nil) :
    hasPath t (b :: rest) = hasPath (t.child b) rest := by
  cases t with
  | nil => exact absurd rfl h
  | node a c g tt cnt ex => rfl

theorem hasPath_nil_trie (p : Strand) : hasPath .nil p = false := by
  cases p <;> rfl

theorem hasPath_of_prefix (t : TrieNode) : ∀ (s p : Strand), p <+: s →
    hasPath t s = true → hasPath t p = true := by
  intro s
  induction s generalizing t with
  | nil =>
    intro p hp hs
    rw [List.prefix_nil.mp hp]
    exact hs
  | cons b rest ih =>
    intro p hp hs
    cases t with
    | nil => rw [hasPath_nil_trie] at hs; exact absurd hs (by simp)
    | node a c g tt cnt ex =>
      cases p with
      | nil => rfl
      | cons b' p' =>
        obtain ⟨hb, hp'⟩ := (List.cons_prefix_cons).mp hp
        subst hb
        rw [hasPath_cons _ _ _ (by simp)] at hs ⊢
        exact ih (TrieNode.child _ b') p' hp' hs

/-! ### `hamming` lemmas -/

theorem hamming_cons_cons (x b : Base) (xs bs : Strand) :
    hamming (x :: xs) (b :: bs) = (if x = b then 0 else 1) + hamming xs bs := rfl

theorem hamming_head_budget (x b b' : Base) (xs bs : Strand) :
    hamming (x :: xs) (b :: bs) ≤ hamming (x :: xs) (b' :: bs) + 1 := by
  rw [hamming_cons_cons, hamming_cons_cons]
  split_ifs <;> omega

theorem hamming_self : ∀ (s : Strand), hamming s s = 0
  | [] => rfl
  | b :: rest => by rw [hamming_cons_cons, if_pos rfl, hamming_self rest]

theorem eq_of_hamming_zero : ∀ (a b : Strand), a.length = b.length → hamming a b = 0 → a = b
  | [], [], _, _ => rfl
  | x :: xs, y :: ys, hlen, hham => by
    rw [hamming_cons_cons] at hham
    by_cases h : x = y
    · subst h
      rw [eq_of_hamming_zero xs ys (by simpa using hlen) (by simpa using hham)]
    · rw [if_neg h] at hham
      omega

theorem wf_child (seqs : Nat → Option Strand) (t : TrieNode) (path : Strand) (b : Base)
    (h : WFtrie seqs t path) : WFtrie seqs (t.child b) (path ++ [b]) := by
  cases t with
  | nil => cases b <;> exact trivial
  | node a c g tt cnt ex =>
    cases b
    · exact h.2.1
    · exact h.2.2.1
    · exact h.2.2.2.1
    · exact h.2.2.2.2

theorem allSome_child (t : TrieNode) (b : Base) (h : allSome t) : allSome (t.child b) := by
  cases t with
  | nil => cases b <;> exact trivial
  | node a c g tt cnt ex =>
    cases b <;> simp only [TrieNode.child] <;>
      first | exact h.2.1 | exact h.2.2.1 | exact h.2.2.2.1 | exact h.2.2.2.2

theorem bound_child (t : TrieNode) (n : Nat) (b : Base) (h : extrasBound t n) :
    extrasBound (t.child b) n := by
  cases t with
  | nil => cases b <;> exact trivial
  | node a c g tt cnt ex =>
    cases b <;> simp only [TrieNode.child] <;>
      first | exact h.2.1 | exact h.2.2.1 | exact h.2.2.2.1 | exact h.2.2.2.2

theorem bound_mono (t : TrieNode) : ∀ (n n' : Nat), n ≤ n' → extrasBound t n → extrasBound t n' := by
  induction t with
  | nil => intro n n' _ _; exact trivial
  | node a c g tt cnt ex iha ihc ihg iht =>
    intro n n' hle h
    exact ⟨fun v hv => lt_of_lt_of_le (h.1 v hv) hle,
      iha n n' hle h.2.1, ihc n n' hle h.2.2.1, ihg n n' hle h.2.2.2.1, iht n n' hle h.2.2.2.2⟩

/-- Pointwise-equal registration maps give the same well-formedness. -/
theorem wf_congr (seqs₁ seqs₂ : Nat → Option Strand) (hpt : ∀ n, seqs₁ n = seqs₂ n) :
    ∀ (t : TrieNode) (path : Strand), WFtrie seqs₁ t path → WFtrie seqs₂ t path := by
  intro t
  induction t with
  | nil => intro path _; exact trivial
  | node a c g tt cnt ex iha ihc ihg iht =>
    intro path h
    refine ⟨fun v hv => ?_, iha _ h.2.1, ihc _ h.2.2.1, ihg _ h.2.2.2.1, iht _ h.2.2.2.2⟩
    obtain ⟨s, hs, hpre⟩ := h.1 v hv
    exact ⟨s, (hpt v).symm.trans hs, hpre⟩

/-- Extending the registration map at a fresh id keeps well-formedness. -/
theorem wf_update (seqs : Nat → Option Strand) (n : Nat) (x : Strand) :
    ∀ (t : TrieNode) (path : Strand), WFtrie seqs t path → extrasBound t n →
      WFtrie (fun k => if k = n then some x else seqs k) t path := by
  intro t
  induction t with
  | nil => intro path _ _; exact trivial
  | node a c g tt cnt ex iha ihc ihg iht =>
    intro path h hb
    refine ⟨fun v hv => ?_, iha _ h.2.1 hb.2.1, ihc _ h.2.2.1 hb.2.2.1,
      ihg _ h.2.2.2.1 hb.2.2.2.1, iht _ h.2.2.2.2 hb.2.2.2.2⟩
    obtain ⟨s, hs, hpre⟩ := h.1 v hv
    have hne : v ≠ n := Nat.ne_of_lt (hb.1 v hv)
    refine ⟨s, ?_, hpre⟩
    show (if v = n then some x else seqs v) = some s
    rw [if_neg hne]
    exact hs

/-! ### Lemmas about `chain`, the freshly built branch of an insertion -/

theorem chain_ne_nil (e : Nat) (rest : Strand) : chain e rest ≠ .nil := by
  cases rest with
  | nil => simp [chain]
  | cons b bs => exact setChild_ne_nil _ _ _ _ _ _ _ _

theorem chain_extraOf (e : Nat) (rest : Strand) : (chain e rest).extraOf = some e := by
  cases rest with
  | nil => rfl
  | cons b bs => rw [chain, extraOf_setChild]; rfl

theorem chain_child (e : Nat) (b bh : Base) (bs : Strand) :
    (chain e (bh :: bs)).child b = if b = bh then chain e bs else .nil := by
  rw [chain]
  by_cases h : b = bh
  · subst h
    rw [if_pos rfl, child_setChild_self _ _ _ (by simp)]
  · rw [if_neg h, child_setChild_ne _ _ _ _ h]
    cases b <;> rfl

theorem chain_child_nil_query (e : Nat) (b : Base) :
    (chain e []).child b = .nil := by cases b <;> rfl

theorem chain_search (e : Nat) : ∀ (rest : Strand), (chain e rest).search rest 0 = some e := by
  intro rest
  induction rest with
  | nil => rw [search_nil_query, chain_extraOf]
  | cons b bs ih =>
    have hc : (chain e (b :: bs)).child b = chain e bs := by
      rw [chain_child, if_pos rfl]
    cases h : chain e bs with
    | nil => exact absurd h (chain_ne_nil e bs)
    | node a c g tt cnt ex =>
      rw [search_cons_node _ _ _ _ a c g tt cnt ex (hc.trans h), ← h, ih]

theorem chain_hasPath (e : Nat) : ∀ (rest ps : Strand),
    hasPath (chain e rest) ps = decide (ps <+: rest) := by
  intro rest
  induction rest with
  | nil =>
    intro ps
    cases ps with
    | nil => simp [chain, hasPath]
    | cons q qs =>
      rw [hasPath_cons _ _ _ (chain_ne_nil e []), chain_child_nil_query, hasPath_nil_trie]
      simp
  | cons b bs ih =>
    intro ps
    cases ps with
    | nil => simp [hasPath_nil_query _ (chain_ne_nil e (b :: bs))]
    | cons q qs =>
      rw [hasPath_cons _ _ _ (chain_ne_nil e (b :: bs)), chain_child]
      by_cases h : q = b
      · subst h
        rw [if_pos rfl, ih qs]
        simp [List.cons_prefix_cons]
      · rw [if_neg h, hasPath_nil_trie]
        simp [List.cons_prefix_cons, h]

theorem chain_allSome (e : Nat) : ∀ (rest : Strand), allSome (chain e rest) := by
  intro rest
  induction rest with
  | nil => exact ⟨by simp, trivial, trivial, trivial, trivial⟩
  | cons b bs ih =>
    cases b
    · exact ⟨by simp, ih, trivial, trivial, trivial⟩
    · exact ⟨by simp, trivial, ih, trivial, trivial⟩
    · exact ⟨by simp, trivial, trivial, ih, trivial⟩
    · exact ⟨by simp, trivial, trivial, trivial, ih⟩

theorem chain_bound (e n : Nat) (he : e < n) : ∀ (rest : Strand), extrasBound (chain e rest) n := by
  intro rest
  induction rest with
  | nil =>
    refine ⟨fun v hv => ?_, trivial, trivial, trivial, trivial⟩
    obtain rfl : e = v := by simpa using hv
    exact he
  | cons b bs ih =>
    have hx : ∀ v, some e = some v → v < n := fun v hv => by
      obtain rfl : e = v := by simpa using hv
      exact he
    cases b
    · exact ⟨hx, ih, trivial, trivial, trivial⟩
    · exact ⟨hx, trivial, ih, trivial, trivial⟩
    · exact ⟨hx, trivial, trivial, ih, trivial⟩
    · exact ⟨hx, trivial, trivial, trivial, ih⟩

theorem chain_wf (seqs : Nat → Option Strand) (e : Nat) (full : Strand)
    (he : seqs e = some full) : ∀ (rest p : Strand), (p ++ rest) <+: full →
    WFtrie seqs (chain e rest) p := by
  intro rest
  induction rest with
  | nil =>
    intro p hp
    refine ⟨fun v hv => ?_, trivial, trivial, trivial, trivial⟩
    obtain rfl : e = v := by simpa using hv
    exact ⟨full, he, by simpa using hp⟩
  | cons b bs ih =>
    intro p hp
    have hx : ∀ v, some e = some v → ∃ s, seqs v = some s ∧ p <+: s := fun v hv => by
      obtain rfl : e = v := by simpa using hv
      exact ⟨full, he, (List.prefix_append p (b :: bs)).trans hp⟩
    have hrec : ((p ++ [b]) ++ bs) <+: full := by
      rw [List.append_assoc]
      exact hp
    cases b
    · exact ⟨hx, ih (p ++ [Base.A]) hrec, trivial, trivial, trivial⟩
    · exact ⟨hx, trivial, ih (p ++ [Base.C]) hrec, trivial, trivial⟩
    · exact ⟨hx, trivial, trivial, ih (p ++ [Base.G]) hrec, trivial⟩
    · exact ⟨hx, trivial, trivial, trivial, ih (p ++ [Base.T]) hrec⟩

/-! ### What a successful search guarantees on a well-formed trie -/

/-- On a well-formed trie, a search for `q` from a node at `path` that returns
vertex `v` has followed some strand `q'` of the same length as `q`, differing
from `q` in at most `m` positions, and `path ++ q'` is a prefix of `v`'s
registered sequence. -/
theorem search_wf (seqs : Nat → Option Strand) :
    ∀ (m : Nat) (q : Strand) (t : TrieNode) (path : Strand) (v : Nat),
      WFtrie seqs t path → t.search q m = some v →
      ∃ q' s, seqs v = some s ∧ (path ++ q') <+: s ∧ q'.length = q.length ∧
        hamming q' q ≤ m := by
  intro m
  induction m with
  | zero =>
    intro q
    induction q with
    | nil =>
      intro t path v hwf hs
      rw [search_nil_query] at hs
      cases t with
      | nil => exact absurd hs (by simp [TrieNode.extraOf])
      | node a c g tt cnt ex =>
        obtain ⟨s, hvs, hpre⟩ := hwf.1 v hs
        exact ⟨[], s, hvs, by simpa using hpre, rfl, Nat.le_refl 0⟩
    | cons b rest ih =>
      intro t path v hwf hs
      cases hc : t.child b with
      | nil => rw [search_stuck_zero t b rest hc] at hs; cases hs
      | node a c g tt cnt ex =>
        rw [search_cons_node t b rest 0 a c g tt cnt ex hc] at hs
        have hwfc : WFtrie seqs (TrieNode.node a c g tt cnt ex) (path ++ [b]) := by
          rw [← hc]
          exact wf_child seqs t path b hwf
        obtain ⟨q', s, hvs, hpre, hlen, hham⟩ := ih _ (path ++ [b]) v hwfc hs
        refine ⟨b :: q', s, hvs, ?_, by simpa using hlen, ?_⟩
        · simpa using hpre
        · rw [hamming_cons_cons, if_pos rfl]
          simpa using hham
  | succ m ihm =>
    intro q
    induction q with
    | nil =>
      intro t path v hwf hs
      rw [search_nil_query] at hs
      cases t with
      | nil => exact absurd hs (by simp [TrieNode.extraOf])
      | node a c g tt cnt ex =>
        obtain ⟨s, hvs, hpre⟩ := hwf.1 v hs
        exact ⟨[], s, hvs, by simpa using hpre, rfl, Nat.zero_le _⟩
    | cons b rest ih =>
      intro t path v hwf hs
      cases hc : t.child b with
      | node a c g tt cnt ex =>
        rw [search_cons_node t b rest (m + 1) a c g tt cnt ex hc] at hs
        have hwfc : WFtrie seqs (TrieNode.node a c g tt cnt ex) (path ++ [b]) := by
          rw [← hc]
          exact wf_child seqs t path b hwf
        obtain ⟨q', s, hvs, hpre, hlen, hham⟩ := ih _ (path ++ [b]) v hwfc hs
        refine ⟨b :: q', s, hvs, ?_, by simpa using hlen, ?_⟩
        · simpa using hpre
        · rw [hamming_cons_cons, if_pos rfl]
          simpa using hham
      | nil =>
        rw [search_stuck_succ t b rest m hc] at hs
        have key : ∀ (b' : Base), t.search (b' :: rest) m = some v →
            ∃ q' s, seqs v = some s ∧ (path ++ q') <+: s ∧
              q'.length = (b :: rest).length ∧ hamming q' (b :: rest) ≤ m + 1 := by
          intro b' hb'
          obtain ⟨q', s, hvs, hpre, hlen, hham⟩ := ihm (b' :: rest) t path v hwf hb'
          cases q' with
          | nil => simp at hlen
          | cons x xs =>
            refine ⟨x :: xs, s, hvs, hpre, by simpa using hlen, ?_⟩
            calc hamming (x :: xs) (b :: rest)
                ≤ hamming (x :: xs) (b' :: rest) + 1 := hamming_head_budget x b b' xs rest
              _ ≤ m + 1 := by omega
        cases hA : t.search (Base.A :: rest) m with
        | some e => rw [hA] at hs; cases hs; exact key Base.A hA
        | none =>
          rw [hA] at hs
          cases hC : t.search (Base.C :: rest) m with
          | some e => rw [hC] at hs; cases hs; exact key Base.C hC
          | none =>
            rw [hC] at hs
            cases hG : t.search (Base.G :: rest) m with
            | some e => rw [hG] at hs; cases hs; exact key Base.G hG
            | none =>
              rw [hG] at hs
              exact key Base.T hs

/-! ### Helper lemmas for reasoning about one insertion -/

theorem search_zero_eq (t : TrieNode) (p : Strand) : t.search p 0 = searchExact t p := rfl

theorem searchExact_nil_trie (p : Strand) : searchExact .nil p = none := by
  cases p with
  | nil => rfl
  | cons b rest => rw [searchExact]; rfl

theorem searchExact_cons (t : TrieNode) (b : Base) (rest : Strand) :
    searchExact t (b :: rest) = searchExact (t.child b) rest := by
  cases h : t.child b with
  | nil => rw [searchExact, h, searchExact_nil_trie]
  | node a c g tt cnt ex => rw [searchExact, h]

theorem hasPath_cons_any (t : TrieNode) (b : Base) (rest : Strand) :
    hasPath t (b :: rest) = hasPath (t.child b) rest := by
  cases t with
  | nil =>
    rw [hasPath_nil_trie]
    show _ = hasPath .nil rest
    rw [hasPath_nil_trie]
  | node a c g tt cnt ex => rfl

theorem allSome_setChild (a c g tt : TrieNode) (cnt : Nat) (ex : Option Nat) (ch : Base)
    (x : TrieNode) (h : allSome (.node a c g tt cnt ex)) (hx : allSome x) :
    allSome ((TrieNode.node a c g tt cnt ex).setChild ch x) := by
  cases ch
  · exact ⟨h.1, hx, h.2.2.1, h.2.2.2.1, h.2.2.2.2⟩
  · exact ⟨h.1, h.2.1, hx, h.2.2.2.1, h.2.2.2.2⟩
  · exact ⟨h.1, h.2.1, h.2.2.1, hx, h.2.2.2.2⟩
  · exact ⟨h.1, h.2.1, h.2.2.1, h.2.2.2.1, hx⟩

theorem wf_setChild (seqs : Nat → Option Strand) (a c g tt : TrieNode) (cnt : Nat)
    (ex : Option Nat) (ch : Base) (x : TrieNode) (path : Strand)
    (h : WFtrie seqs (.node a c g tt cnt ex) path) (hx : WFtrie seqs x (path ++ [ch])) :
    WFtrie seqs ((TrieNode.node a c g tt cnt ex).setChild ch x) path := by
  cases ch
  · exact ⟨h.1, hx, h.2.2.1, h.2.2.2.1, h.2.2.2.2⟩
  · exact ⟨h.1, h.2.1, hx, h.2.2.2.1, h.2.2.2.2⟩
  · exact ⟨h.1, h.2.1, h.2.2.1, hx, h.2.2.2.2⟩
  · exact ⟨h.1, h.2.1, h.2.2.1, h.2.2.2.1, hx⟩

theorem bound_setChild (a c g tt : TrieNode) (cnt : Nat) (ex : Option Nat) (ch : Base)
    (x : TrieNode) (n : Nat) (h : extrasBound (.node a c g tt cnt ex) n)
    (hx : extrasBound x n) : extrasBound ((TrieNode.node a c g tt cnt ex).setChild ch x) n := by
  cases ch
  · exact ⟨h.1, hx, h.2.2.1, h.2.2.2.1, h.2.2.2.2⟩
  · exact ⟨h.1, h.2.1, hx, h.2.2.2.1, h.2.2.2.2⟩
  · exact ⟨h.1, h.2.1, h.2.2.1, hx, h.2.2.2.2⟩
  · exact ⟨h.1, h.2.1, h.2.2.1, h.2.2.2.1, hx⟩

/-- Computed form of one insertion step when the branching child is absent:
the iterative chain-building branch of `insert_strand` fires. -/
theorem insert_comp_nil (a c g tt : TrieNode) (cnt e fresh : Nat) (ch : Base) (rest : Strand)
    (hc : (TrieNode.node a c g tt cnt (some e)).child ch = .nil) :
    TrieNode.insertStrand (.node a c g tt cnt (some e)) (ch :: rest) none false fresh
      = ((TrieNode.node a c g tt (cnt + 1) (some e)).setChild ch (chain fresh rest),
         some fresh, fresh + 1) := by
  cases ch <;> (simp only [TrieNode.child] at hc; subst hc; rfl)

/-- Computed form of one insertion step when the branching child exists:
the recursive branch of `insert_strand` fires. -/
theorem insert_comp_node (a c g tt : TrieNode) (cnt e fresh : Nat) (ch : Base) (rest : Strand)
    (a' c' g' t' : TrieNode) (cnt' : Nat) (ext' : Option Nat)
    (hc : (TrieNode.node a c g tt cnt (some e)).child ch = .node a' c' g' t' cnt' ext') :
    TrieNode.insertStrand (.node a c g tt cnt (some e)) (ch :: rest) none false fresh
      = ((TrieNode.node a c g tt (cnt + 1) (some e)).setChild ch
           (TrieNode.insertStrand (.node a' c' g' t' cnt' ext') rest none false fresh).1,
         (TrieNode.insertStrand (.node a' c' g' t' cnt' ext') rest none false fresh).2.1,
         (TrieNode.insertStrand (.node a' c' g' t' cnt' ext') rest none false fresh).2.2) := by
  cases ch <;> (simp only [TrieNode.child] at hc; subst hc; rfl)

/-! ### The main invariant-preservation lemma for one insertion -/

/-- Inserting a strand `s` into a node-rooted, fully-anchored, well-formed
trie (the situation of every insertion after the first) either returns no
vertex — the strand's path already existed; the trie keeps its paths, extras
and zero-mismatch search results — or returns the freshly allocated id: the
strand's path did not exist before, it exists afterwards, old search results
persist, and the new id is anchored at the strand's end node. -/
theorem insert_main (seqs : Nat → Option Strand) :
    ∀ (s : Strand) (t : TrieNode) (path : Strand) (fresh : Nat) (t' : TrieNode)
      (res : Option Nat) (fr : Nat),
      t ≠ .nil → allSome t → WFtrie seqs t path → extrasBound t fresh →
      TrieNode.insertStrand t s none false fresh = (t', res, fr) →
      t' ≠ .nil ∧ allSome t' ∧
      (res = none → fr = fresh ∧ WFtrie seqs t' path ∧ extrasBound t' fresh ∧
        (∀ p, hasPath t' p = hasPath t p) ∧
        (∀ p v, t.search p 0 = some v → t'.search p 0 = some v) ∧
        hasPath t s = true) ∧
      (∀ w, res = some w → w = fresh ∧ fr = fresh + 1 ∧
        WFtrie (fun k => if k = fresh then some (path ++ s) else seqs k) t' path ∧
        extrasBound t' (fresh + 1) ∧
        (∀ p, hasPath t' p = (hasPath t p || decide (p <+: s))) ∧
        (∀ p v, t.search p 0 = some v → t'.search p 0 = some v) ∧
        t'.search s 0 = some fresh ∧ hasPath t s = false) := by
  intro s
  induction s with
  | nil =>
    intro t path fresh t' res fr hnil hall hwf hb heq
    cases t with
    | nil => exact absurd rfl hnil
    | node a c g tt cnt ex =>
      cases ex with
      | none => exact absurd rfl hall.1
      | some e =>
        have hcomp : TrieNode.insertStrand (.node a c g tt cnt (some e)) [] none false fresh
            = (.node a c g tt (cnt + 1) (some e), none, fresh) := rfl
        rw [hcomp] at heq
        cases heq
        refine ⟨by simp, ⟨by simp, hall.2.1, hall.2.2.1, hall.2.2.2.1, hall.2.2.2.2⟩,
          fun _ => ⟨rfl, hwf, hb, ?_, ?_, hasPath_nil_query _ (by simp)⟩,
          fun w hw => Option.noConfusion hw⟩
        · intro p
          cases p with
          | nil => rfl
          | cons b ps =>
            rw [hasPath_cons_any, hasPath_cons_any, child_node_count_irrel]
        · intro p v hp
          rw [search_zero_eq] at hp ⊢
          cases p with
          | nil => exact hp
          | cons b ps =>
            rw [searchExact_cons] at hp ⊢
            rw [child_node_count_irrel a c g tt (cnt + 1) cnt (some e) (some e)]
            exact hp
  | cons ch rest ih =>
    intro t path fresh t' res fr hnil hall hwf hb heq
    cases t with
    | nil => exact absurd rfl hnil
    | node a c g tt cnt ex =>
      cases ex with
      | none => exact absurd rfl hall.1
      | some e =>
        cases hc : (TrieNode.node a c g tt cnt (some e)).child ch with
        | nil =>
          rw [insert_comp_nil a c g tt cnt e fresh ch rest hc] at heq
          cases heq
          have hall1 : allSome (TrieNode.node a c g tt (cnt + 1) (some e)) :=
            ⟨by simp, hall.2.1, hall.2.2.1, hall.2.2.2.1, hall.2.2.2.2⟩
          refine ⟨setChild_ne_nil _ _ _ _ _ _ _ _,
            allSome_setChild _ _ _ _ _ _ _ _ hall1 (chain_allSome fresh rest),
            fun h0 => Option.noConfusion h0, fun w hw => ?_⟩
          obtain rfl : fresh = w := by simpa using hw
          have hchild' : ∀ b, ((TrieNode.node a c g tt (cnt + 1) (some e)).setChild ch
              (chain fresh rest)).child b
              = if b = ch then chain fresh rest else (TrieNode.node a c g tt cnt (some e)).child b := by
            intro b
            by_cases hbc : b = ch
            · subst hbc
              rw [if_pos rfl, child_setChild_self _ _ _ (by simp)]
            · rw [if_neg hbc, child_setChild_ne _ _ _ _ hbc, child_node_count_irrel]
          refine ⟨rfl, rfl, ?_, ?_, ?_, ?_, ?_, ?_⟩
          · -- well-formedness with the extended registration map
            have hupd : WFtrie (fun k => if k = fresh then some (path ++ ch :: rest) else seqs k)
                (.node a c g tt (cnt + 1) (some e)) path :=
              wf_update seqs fresh (path ++ ch :: rest) _ path hwf hb
            refine wf_setChild _ a c g tt (cnt + 1) (some e) ch _ path hupd ?_
            refine chain_wf _ fresh (path ++ ch :: rest) (by rw [if_pos rfl]) rest (path ++ [ch]) ?_
            rw [List.append_assoc]
            simp
          · refine bound_setChild a c g tt (cnt + 1) (some e) ch _ (fresh + 1)
              (bound_mono _ fresh (fresh + 1) (Nat.le_succ fresh) hb) ?_
            exact chain_bound fresh (fresh + 1) (Nat.lt_succ_self fresh) rest
          · intro p
            cases p with
            | nil =>
              rw [hasPath_nil_query _ (setChild_ne_nil _ _ _ _ _ _ _ _),
                hasPath_nil_query _ (by simp)]
              simp
            | cons b ps =>
              rw [hasPath_cons_any, hasPath_cons_any, hchild' b]
              by_cases hbc : b = ch
              · subst hbc
                rw [if_pos rfl, chain_hasPath, hc, hasPath_nil_trie]
                simp [List.cons_prefix_cons]
              · rw [if_neg hbc]
                have : decide (b :: ps <+: ch :: rest) = false := by
                  simp [List.cons_prefix_cons, hbc]
                rw [this, Bool.or_false]
          · intro p v hp
            rw [search_zero_eq] at hp ⊢
            cases p with
            | nil => rw [searchExact] at hp ⊢; rwa [extraOf_setChild]
            | cons b ps =>
              rw [searchExact_cons] at hp ⊢
              rw [hchild' b]
              by_cases hbc : b = ch
              · subst hbc
                rw [hc, searchExact_nil_trie] at hp
                cases hp
              · rw [if_neg hbc]
                exact hp
          · rw [search_zero_eq, searchExact_cons, hchild' ch, if_pos rfl]
            exact chain_search fresh rest
          · rw [hasPath_cons_any, hc, hasPath_nil_trie]
        | node a' c' g' t'' cnt' ext' =>
          rw [insert_comp_node a c g tt cnt e fresh ch rest a' c' g' t'' cnt' ext' hc] at heq
          cases heq
          obtain ⟨ihnil, ihall, ihnone, ihsome⟩ :=
            ih (.node a' c' g' t'' cnt' ext') (path ++ [ch]) fresh
              (TrieNode.insertStrand (.node a' c' g' t'' cnt' ext') rest none false fresh).1
              (TrieNode.insertStrand (.node a' c' g' t'' cnt' ext') rest none false fresh).2.1
              (TrieNode.insertStrand (.node a' c' g' t'' cnt' ext') rest none false fresh).2.2
              (by simp) (hc ▸ allSome_child _ ch hall) (hc ▸ wf_child seqs _ path ch hwf)
              (hc ▸ bound_child _ fresh ch hb) rfl
          have hall1 : allSome (TrieNode.node a c g tt (cnt + 1) (some e)) :=
            ⟨by simp, hall.2.1, hall.2.2.1, hall.2.2.2.1, hall.2.2.2.2⟩
          have hchild' : ∀ b, ((TrieNode.node a c g tt (cnt + 1) (some e)).setChild ch
              (TrieNode.insertStrand (.node a' c' g' t'' cnt' ext') rest none false fresh).1).child b
              = if b = ch
                then (TrieNode.insertStrand (.node a' c' g' t'' cnt' ext') rest none false fresh).1
                else (TrieNode.node a c g tt cnt (some e)).child b := by
            intro b
            by_cases hbc : b = ch
            · subst hbc
              rw [if_pos rfl, child_setChild_self _ _ _ (by simp)]
            · rw [if_neg hbc, child_setChild_ne _ _ _ _ hbc, child_node_count_irrel]
          refine ⟨setChild_ne_nil _ _ _ _ _ _ _ _,
            allSome_setChild _ _ _ _ _ _ _ _ hall1 ihall, fun h0 => ?_, fun w hw => ?_⟩
          · obtain ⟨ihfr, ihwf, ihb, ihhp, ihpres, ihpath⟩ := ihnone h0
            refine ⟨ihfr, wf_setChild _ a c g tt (cnt + 1) (some e) ch _ path hwf ihwf,
              bound_setChild a c g tt (cnt + 1) (some e) ch _ fresh hb ihb, ?_, ?_, ?_⟩
            · intro p
              cases p with
              | nil =>
                rw [hasPath_nil_query _ (setChild_ne_nil _ _ _ _ _ _ _ _),
                  hasPath_nil_query _ (by simp)]
              | cons b ps =>
                rw [hasPath_cons_any, hasPath_cons_any, hchild' b]
                by_cases hbc : b = ch
                · subst hbc
                  rw [if_pos rfl, ihhp ps, hc]
                · rw [if_neg hbc]
            · intro p v hp
              rw [search_zero_eq] at hp ⊢
              cases p with
              | nil => rw [searchExact] at hp ⊢; rwa [extraOf_setChild]
              | cons b ps =>
                rw [searchExact_cons] at hp ⊢
                rw [hchild' b]
                by_cases hbc : b = ch
                · subst hbc
                  rw [if_pos rfl]
                  rw [hc] at hp
                  have := ihpres ps v hp
                  rwa [search_zero_eq] at this
                · rw [if_neg hbc]
                  exact hp
            · rw [hasPath_cons_any, hc]
              exact ihpath
          · obtain ⟨hwfr, ihfr, ihwf, ihb, ihhp, ihpres, ihsearch, ihpath⟩ := ihsome w hw
            refine ⟨hwfr, ihfr, ?_, bound_setChild a c g tt (cnt + 1) (some e) ch _ (fresh + 1)
              (bound_mono _ fresh (fresh + 1) (Nat.le_succ fresh) hb) ihb, ?_, ?_, ?_, ?_⟩
            · -- transport the IH well-formedness along list associativity
              have hptw : ∀ k, (if k = fresh then some ((path ++ [ch]) ++ rest) else seqs k)
                  = (if k = fresh then some (path ++ ch :: rest) else seqs k) := by
                intro k
                by_cases hk : k = fresh
                · rw [if_pos hk, if_pos hk, List.append_assoc]
                  rfl
                · rw [if_neg hk, if_neg hk]
              have ihwf' := wf_congr _ _ hptw _ _ ihwf
              refine wf_setChild _ a c g tt (cnt + 1) (some e) ch _ path ?_ ihwf'
              exact wf_update seqs fresh (path ++ ch :: rest) _ path hwf hb
            · intro p
              cases p with
              | nil =>
                rw [hasPath_nil_query _ (setChild_ne_nil _ _ _ _ _ _ _ _),
                  hasPath_nil_query _ (by simp)]
                simp
              | cons b ps =>
                rw [hasPath_cons_any, hasPath_cons_any, hchild' b]
                by_cases hbc : b = ch
                · subst hbc
                  rw [if_pos rfl, ihhp ps, hc]
                  simp [List.cons_prefix_cons]
                · rw [if_neg hbc]
                  have : decide (b :: ps <+: ch :: rest) = false := by
                    simp [List.cons_prefix_cons, hbc]
                  rw [this, Bool.or_false]
            · intro p v hp
              rw [search_zero_eq] at hp ⊢
              cases p with
              | nil => rw [searchExact] at hp ⊢; rwa [extraOf_setChild]
              | cons b ps =>
                rw [searchExact_cons] at hp ⊢
                rw [hchild' b]
                by_cases hbc : b = ch
                · subst hbc
                  rw [if_pos rfl]
                  rw [hc] at hp
                  have := ihpres ps v hp
                  rwa [search_zero_eq] at this
                · rw [if_neg hbc]
                  exact hp
            · rw [search_zero_eq, searchExact_cons, hchild' ch, if_pos rfl]
              rw [search_zero_eq] at ihsearch
              exact ihsearch
            · rw [hasPath_cons_any, hc]
              exact ihpath

/-! ### The very first insertion, into the fresh root node -/

theorem insert_init_comp_nil (fresh : Nat) :
    TrieNode.insertStrand initTrie [] none false fresh
      = (.node .nil .nil .nil .nil 1 (some fresh), some fresh, fresh + 1) := rfl

theorem insert_init_comp_cons (fresh : Nat) (ch : Base) (rest : Strand) :
    TrieNode.insertStrand initTrie (ch :: rest) none false fresh
      = ((TrieNode.node .nil .nil .nil .nil 1 (some fresh)).setChild ch (chain fresh rest),
         some fresh, fresh + 1) := by
  cases ch <;> rfl

/-- The first insertion into the fresh root always creates the vertex `fresh`,
anchors it on the whole strand's path, and its path is the only one present. -/
theorem insert_init_props (seqs : Nat → Option Strand) (s : Strand) (fresh : Nat)
    (t' : TrieNode) (res : Option Nat) (fr : Nat)
    (heq : TrieNode.insertStrand initTrie s none false fresh = (t', res, fr)) :
    res = some fresh ∧ fr = fresh + 1 ∧ t' ≠ .nil ∧ allSome t' ∧
    WFtrie (fun k => if k = fresh then some s else seqs k) t' [] ∧
    extrasBound t' (fresh + 1) ∧
    (∀ p, hasPath t' p = decide (p <+: s)) ∧
    t'.search s 0 = some fresh := by
  cases s with
  | nil =>
    rw [insert_init_comp_nil] at heq
    cases heq
    refine ⟨rfl, rfl, by simp, ⟨by simp, trivial, trivial, trivial, trivial⟩, ?_, ?_, ?_, rfl⟩
    · refine ⟨fun v hv => ?_, trivial, trivial, trivial, trivial⟩
      obtain rfl : fresh = v := by simpa using hv
      exact ⟨[], by simp, List.prefix_rfl⟩
    · refine ⟨fun v hv => ?_, trivial, trivial, trivial, trivial⟩
      obtain rfl : fresh = v := by simpa using hv
      exact Nat.lt_succ_self fresh
    · intro p
      cases p with
      | nil =>
        rw [hasPath_nil_query _ (by simp)]
        simp
      | cons b ps =>
        rw [hasPath_cons_any]
        have : (TrieNode.node .nil .nil .nil .nil 1 (some fresh)).child b = .nil := by
          cases b <;> rfl
        rw [this, hasPath_nil_trie]
        simp
  | cons ch rest =>
    rw [insert_init_comp_cons] at heq
    cases heq
    have hchild' : ∀ b, ((TrieNode.node .nil .nil .nil .nil 1 (some fresh)).setChild ch
        (chain fresh rest)).child b = if b = ch then chain fresh rest else .nil := by
      intro b
      by_cases hbc : b = ch
      · subst hbc
        rw [if_pos rfl, child_setChild_self _ _ _ (by simp)]
      · rw [if_neg hbc, child_setChild_ne _ _ _ _ hbc]
        cases b <;> rfl
    refine ⟨rfl, rfl, setChild_ne_nil _ _ _ _ _ _ _ _,
      allSome_setChild _ _ _ _ _ _ _ _ ⟨by simp, trivial, trivial, trivial, trivial⟩
        (chain_allSome fresh rest), ?_, ?_, ?_, ?_⟩
    · refine wf_setChild _ _ _ _ _ _ _ _ _ _ ⟨fun v hv => ?_, trivial, trivial, trivial, trivial⟩ ?_
      · obtain rfl : fresh = v := by simpa using hv
        exact ⟨ch :: rest, by simp, List.nil_prefix⟩
      · refine chain_wf _ fresh (ch :: rest) (by simp) rest [ch] ?_
        simp
    · refine bound_setChild _ _ _ _ _ _ _ _ _ ⟨fun v hv => ?_, trivial, trivial, trivial, trivial⟩
        (chain_bound fresh (fresh + 1) (Nat.lt_succ_self fresh) rest)
      obtain rfl : fresh = v := by simpa using hv
      exact Nat.lt_succ_self fresh
    · intro p
      cases p with
      | nil =>
        rw [hasPath_nil_query _ (setChild_ne_nil _ _ _ _ _ _ _ _)]
        simp
      | cons b ps =>
        rw [hasPath_cons_any, hchild' b]
        by_cases hbc : b = ch
        · subst hbc
          rw [if_pos rfl, chain_hasPath]
          simp [List.cons_prefix_cons]
        · rw [if_neg hbc, hasPath_nil_trie]
          simp [List.cons_prefix_cons, hbc]
    · rw [search_zero_eq, searchExact_cons, hchild' ch, if_pos rfl]
      exact chain_search fresh rest

/-! ### Lookup lemmas for the registration list -/

theorem lookupId_append (v : Nat) (l₁ l₂ : List (Nat × Strand)) :
    lookupId v (l₁ ++ l₂)
      = (match lookupId v l₁ with
         | some s => some s
         | none => lookupId v l₂) := by
  induction l₁ with
  | nil => rfl
  | cons p rest ih =>
    show lookupId v (p :: (rest ++ l₂)) = _
    rw [lookupId]
    by_cases h : p.1 = v
    · rw [if_pos h]
      rw [show lookupId v (p :: rest) = some p.2 by rw [lookupId, if_pos h]]
    · rw [if_neg h, ih]
      rw [show lookupId v (p :: rest) = lookupId v rest by rw [lookupId, if_neg h]]

theorem lookupId_not_mem (v : Nat) (l : List (Nat × Strand))
    (h : v ∉ l.map Prod.fst) : lookupId v l = none := by
  induction l with
  | nil => rfl
  | cons p rest ih =>
    rw [lookupId]
    rw [List.map_cons, List.mem_cons] at h
    push_neg at h
    rw [if_neg (fun hh => h.1 hh.symm)]
    exact ih h.2

theorem lookupId_mem (v : Nat) (s : Strand) : ∀ (l : List (Nat × Strand)),
    lookupId v l = some s → (v, s) ∈ l := by
  intro l
  induction l with
  | nil => intro h; cases h
  | cons p rest ih =>
    intro h
    rw [lookupId] at h
    by_cases hp : p.1 = v
    · rw [if_pos hp] at h
      obtain rfl : p.2 = s := by simpa using h
      subst hp
      simp
    · rw [if_neg hp] at h
      exact List.mem_cons_of_mem p (ih h)

/-! ### The global invariant of the insertion phase -/

/-- Invariant of `phase1` over the whole read list: ids are allocated densely
in registration order, the counter equals the number of registered vertices,
the trie is well formed over the registered sequences, its paths are exactly
the prefixes of the inserted reads, and every registered vertex is found by a
zero-mismatch search for its sequence. -/
theorem phase1_inv (strands : List Strand) :
    (regsOf strands).map Prod.fst = List.range (regsOf strands).length ∧
    (phase1 strands).2.2 = (regsOf strands).length ∧
    trieOf strands ≠ .nil ∧
    (strands ≠ [] → allSome (trieOf strands)) ∧
    WFtrie (fun v => lookupId v (regsOf strands)) (trieOf strands) [] ∧
    extrasBound (trieOf strands) ((phase1 strands).2.2) ∧
    (∀ p, hasPath (trieOf strands) p = true ↔ (p = [] ∨ ∃ r, r ∈ strands ∧ p <+: r)) ∧
    (∀ v s, (v, s) ∈ regsOf strands → (trieOf strands).search s 0 = some v) := by
  induction strands using List.reverseRecOn with
  | nil =>
    refine ⟨rfl, rfl, by simp [trieOf, phase1, initTrie], fun h => absurd rfl h,
      ⟨fun v hv => Option.noConfusion hv, trivial, trivial, trivial, trivial⟩,
      ⟨fun v hv => Option.noConfusion hv, trivial, trivial, trivial, trivial⟩, ?_, ?_⟩
    · intro p
      cases p with
      | nil => simp [trieOf, phase1, initTrie, hasPath]
      | cons b ps =>
        have h1 : hasPath (trieOf []) (b :: ps) = false := by
          rw [hasPath_cons_any]
          have : (trieOf []).child b = .nil := by cases b <;> rfl
          rw [this, hasPath_nil_trie]
        rw [h1]
        simp
    · intro v s hv
      cases hv
  | append_singleton l s0 ihl =>
    obtain ⟨ih1, ih2, ih3, ih4, ih5, ih6, ih7, ih8⟩ := ihl
    have hfold : phase1 (l ++ [s0]) = phase1Step (phase1 l) s0 := by
      rw [phase1, phase1, List.foldl_append]
      rfl
    by_cases hl : l = []
    · subst hl
      have hPl : phase1 ([] : List Strand) = (initTrie, [], 0) := rfl
      rcases hI : TrieNode.insertStrand initTrie s0 none false 0 with ⟨t', res, fr'⟩
      obtain ⟨hres, hfr, hnil', hall', hwf', hb', hhp', hsearch'⟩ :=
        insert_init_props (fun _ => none) s0 0 t' res fr' hI
      subst hres
      have hstate : phase1 ([] ++ [s0]) = (t', [(0, s0)], fr') := by
        rw [hfold, hPl]
        show phase1Step (initTrie, [], 0) s0 = _
        rw [phase1Step, hI]
        rfl
      have hregs : regsOf ([] ++ [s0]) = [(0, s0)] := by rw [regsOf, hstate]
      have htrie : trieOf ([] ++ [s0]) = t' := by rw [trieOf, hstate]
      have hfr2 : (phase1 ([] ++ [s0])).2.2 = fr' := by rw [hstate]
      refine ⟨by rw [hregs]; rfl, by rw [hfr2, hregs, hfr]; rfl, by rw [htrie]; exact hnil',
        fun _ => by rw [htrie]; exact hall', ?_, ?_, ?_, ?_⟩
      · rw [htrie, hregs]
        refine wf_congr _ _ (fun n => ?_) _ _ hwf'
        by_cases hn : n = 0
        · subst hn
          rw [if_pos rfl]
          show _ = lookupId 0 [(0, s0)]
          rw [lookupId, if_pos rfl]
        · rw [if_neg hn]
          show none = lookupId n [(0, s0)]
          rw [lookupId, if_neg (fun h => hn h.symm)]
          rfl
      · rw [htrie, hfr2, hfr]
        exact hb'
      · intro p
        rw [htrie, hhp' p]
        constructor
        · intro hdec
          right
          exact ⟨s0, by simp, of_decide_eq_true hdec⟩
        · intro hor
          rcases hor with hnilp | ⟨r, hr, hpre⟩
          · subst hnilp
            simp
          · obtain rfl : r = s0 := by simpa using hr
            exact decide_eq_true hpre
      · intro v s hv
        rw [hregs] at hv
        obtain ⟨rfl, rfl⟩ : v = 0 ∧ s = s0 := by simpa using hv
        rw [htrie]
        exact hsearch'
    · -- at least one read was inserted before: use the main insertion lemma
      rcases hPl : phase1 l with ⟨t, regs, fr⟩
      have htl : trieOf l = t := by rw [trieOf, hPl]
      have hrl : regsOf l = regs := by rw [regsOf, hPl]
      have hfl : (phase1 l).2.2 = fr := by rw [hPl]
      rw [htl] at ih3 ih4 ih5 ih6 ih7 ih8
      rw [hrl] at ih1 ih2 ih5 ih8
      rw [hfl] at ih2 ih6
      rcases hI : TrieNode.insertStrand t s0 none false fr with ⟨t', res, fr'⟩
      obtain ⟨hnil', hall', hnone', hsome'⟩ :=
        insert_main (fun v => lookupId v regs) s0 t [] fr t' res fr' ih3 (ih4 hl) ih5 ih6 hI
      cases res with
      | none =>
        have hstate : phase1 (l ++ [s0]) = (t', regs, fr') := by
          rw [hfold, hPl]
          show phase1Step (t, regs, fr) s0 = _
          rw [phase1Step, hI]
        obtain ⟨hfr', hwf', hb', hhp', hpres', hpath'⟩ := hnone' rfl
        have hregs : regsOf (l ++ [s0]) = regs := by rw [regsOf, hstate]
        have htrie : trieOf (l ++ [s0]) = t' := by rw [trieOf, hstate]
        have hfr2 : (phase1 (l ++ [s0])).2.2 = fr' := by rw [hstate]
        refine ⟨by rw [hregs]; exact ih1, by rw [hfr2, hregs, hfr']; exact ih2,
          by rw [htrie]; exact hnil', fun _ => by rw [htrie]; exact hall', ?_, ?_, ?_, ?_⟩
        · rw [htrie, hregs]
          exact hwf'
        · rw [htrie, hfr2, hfr']
          exact hb'
        · intro p
          rw [htrie, hhp' p, ih7 p]
          constructor
          · intro hor
            rcases hor with hnilp | ⟨r, hr, hpre⟩
            · exact Or.inl hnilp
            · exact Or.inr ⟨r, List.mem_append_left _ hr, hpre⟩
          · intro hor
            rcases hor with hnilp | ⟨r, hr, hpre⟩
            · exact Or.inl hnilp
            · rcases List.mem_append.mp hr with hrl' | hrs
              · exact Or.inr ⟨r, hrl', hpre⟩
              · have hr0 : r = s0 := by simpa using hrs
                rw [← ih7 p]
                exact hasPath_of_prefix t s0 p (hr0 ▸ hpre) hpath'
        · intro v s hv
          rw [hregs] at hv
          rw [htrie]
          exact hpres' s v (ih8 v s hv)
      | some w =>
        have hstate : phase1 (l ++ [s0]) = (t', regs ++ [(w, s0)], fr') := by
          rw [hfold, hPl]
          show phase1Step (t, regs, fr) s0 = _
          rw [phase1Step, hI]
        obtain ⟨hwfr, hfr', hwf', hb', hhp', hpres', hsearch', hpath'⟩ := hsome' w rfl
        rw [hwfr] at hstate
        have hregs : regsOf (l ++ [s0]) = regs ++ [(fr, s0)] := by rw [regsOf, hstate]
        have htrie : trieOf (l ++ [s0]) = t' := by rw [trieOf, hstate]
        have hfr2 : (phase1 (l ++ [s0])).2.2 = fr' := by rw [hstate]
        have hfrlen : fr = regs.length := ih2
        refine ⟨?_, ?_, by rw [htrie]; exact hnil', fun _ => by rw [htrie]; exact hall',
          ?_, ?_, ?_, ?_⟩
        · rw [hregs, List.map_append, ih1, List.length_append]
          simp [hfrlen, List.range_succ]
        · rw [hfr2, hfr', hregs, List.length_append, hfrlen]
          simp
        · rw [htrie, hregs]
          refine wf_congr _ _ (fun n => ?_) _ _ hwf'
          rw [lookupId_append]
          by_cases hn : n = fr
          · subst hn
            rw [if_pos rfl, lookupId_not_mem n regs (by rw [ih1, hfrlen]; simp)]
            show some ([] ++ s0) = _
            rw [lookupId, if_pos rfl]
            simp
          · rw [if_neg hn]
            cases hlk : lookupId n regs with
            | some s => rfl
            | none =>
              rw [lookupId, if_neg (fun h => hn h.symm)]
              rfl
        · rw [htrie, hfr2, hfr']
          exact hb'
        · intro p
          rw [htrie, hhp' p]
          constructor
          · intro hor
            rcases Bool.or_eq_true_iff.mp hor with hold | hdec
            · rcases (ih7 p).mp hold with hnilp | ⟨r, hr, hpre⟩
              · exact Or.inl hnilp
              · exact Or.inr ⟨r, List.mem_append_left _ hr, hpre⟩
            · exact Or.inr ⟨s0, by simp, of_decide_eq_true hdec⟩
          · intro hor
            rcases hor with hnilp | ⟨r, hr, hpre⟩
            · exact Bool.or_eq_true_iff.mpr (Or.inl ((ih7 p).mpr (Or.inl hnilp)))
            · rcases List.mem_append.mp hr with hrl' | hrs
              · exact Bool.or_eq_true_iff.mpr (Or.inl ((ih7 p).mpr (Or.inr ⟨r, hrl', hpre⟩)))
              · obtain rfl : r = s0 := by simpa using hrs
                exact Bool.or_eq_true_iff.mpr (Or.inr (decide_eq_true hpre))
        · intro v s hv
          rw [hregs] at hv
          rw [htrie]
          rcases List.mem_append.mp hv with hvl | hvs
          · exact hpres' s v (ih8 v s hvl)
          · obtain ⟨rfl, rfl⟩ : v = fr ∧ s = s0 := by simpa using hvs
            exact hsearch'

/-! ### Bridging lemmas between the phases and the graph -/

/-- Zero-mismatch search succeeds along any existing path of a fully-anchored
trie (it returns the extra of the node the path ends at). -/
theorem search_of_hasPath : ∀ (p : Strand) (t : TrieNode), allSome t →
    hasPath t p = true → ∃ v, t.search p 0 = some v := by
  intro p
  induction p with
  | nil =>
    intro t hall hp
    cases t with
    | nil => rw [hasPath_nil_trie] at hp; cases hp
    | node a c g tt cnt ex =>
      cases hex : ex with
      | none => exact absurd hex hall.1
      | some v => exact ⟨v, by rw [search_nil_query]; simp [TrieNode.extraOf, hex]⟩
  | cons b ps ih =>
    intro t hall hp
    rw [hasPath_cons_any] at hp
    have hcs : allSome (t.child b) := allSome_child t b hall
    obtain ⟨v, hv⟩ := ih (t.child b) hcs hp
    refine ⟨v, ?_⟩
    rw [search_zero_eq, searchExact_cons]
    rw [search_zero_eq] at hv
    exact hv

/-- The vertex list built by `load_from_strands`, expressed through the
insertion-phase registrations. -/
theorem loadFromStrands_vertices (strands : List Strand) (m : Nat) :
    (Graph.loadFromStrands strands m).vertices
      = (regsOf strands).map fun p =>
          ⟨p.1, p.2,
            (findFirstEdge (trieOf strands) m p.1 p.2
              (offsetList 1 (p.2.length - 2 * log4floor strands.length - 1))).toList⟩ := rfl

theorem toList_eq_nil_iff (o : Option (Nat × Nat)) : o.toList = [] ↔ o = none := by
  cases o <;> simp

/-- Unpacking a vertex of the built graph: its edge list is the result of the
suffix-offset scan, and its (id, sequence) pair is registered. -/
theorem edges_of_mem_vertices (strands : List Strand) (m : Nat) (gv : Vertex)
    (h : gv ∈ (Graph.loadFromStrands strands m).vertices) :
    gv.connectedVertices
      = (findFirstEdge (trieOf strands) m gv.vid gv.sequence
          (offsetList 1 (gv.sequence.length - 2 * log4floor strands.length - 1))).toList ∧
    (gv.vid, gv.sequence) ∈ regsOf strands := by
  rw [loadFromStrands_vertices] at h
  obtain ⟨p, hp, rfl⟩ := List.mem_map.mp h
  exact ⟨rfl, hp⟩

/-! ### Characterisation of the suffix-offset scan -/

theorem findFirstEdge_cons_some (t : TrieNode) (m vid : Nat) (seq : Strand) (i : Nat)
    (is : List Nat) (w : Nat) (h : t.search (seq.drop i) m = some w) :
    findFirstEdge t m vid seq (i :: is)
      = if w ≠ vid then some (w, seq.length - i) else findFirstEdge t m vid seq is := by
  rw [findFirstEdge, h]

theorem findFirstEdge_cons_none (t : TrieNode) (m vid : Nat) (seq : Strand) (i : Nat)
    (is : List Nat) (h : t.search (seq.drop i) m = none) :
    findFirstEdge t m vid seq (i :: is) = findFirstEdge t m vid seq is := by
  rw [findFirstEdge, h]

theorem findFirstEdge_none_iff (t : TrieNode) (m vid : Nat) (seq : Strand) :
    ∀ (n a : Nat), findFirstEdge t m vid seq (offsetList a n) = none ↔
      (∀ i, a ≤ i → i < a + n → ∀ w, t.search (seq.drop i) m = some w → w = vid) := by
  intro n
  induction n with
  | zero =>
    intro a
    constructor
    · intro _ i hai hia
      omega
    · intro _
      rfl
  | succ n ihn =>
    intro a
    rw [offsetList]
    cases hs : t.search (seq.drop a) m with
    | some w =>
      rw [findFirstEdge_cons_some t m vid seq a _ w hs]
      by_cases hw : w ≠ vid
      · rw [if_pos hw]
        constructor
        · intro h; cases h
        · intro h
          exact absurd (h a (Nat.le_refl a) (by omega) w hs) hw
      · rw [if_neg hw]
        push_neg at hw
        rw [ihn (a + 1)]
        constructor
        · intro h i hai hia w' hw'
          rcases Nat.eq_or_lt_of_le hai with rfl | hlt
          · rw [hs] at hw'
            obtain rfl : w = w' := by simpa using hw'
            exact hw
          · exact h i hlt (by omega) w' hw'
        · intro h i hai hia w' hw'
          exact h i (by omega) (by omega) w' hw'
    | none =>
      rw [findFirstEdge_cons_none t m vid seq a _ hs, ihn (a + 1)]
      constructor
      · intro h i hai hia w' hw'
        rcases Nat.eq_or_lt_of_le hai with rfl | hlt
        · rw [hs] at hw'
          cases hw'
        · exact h i hlt (by omega) w' hw'
      · intro h i hai hia w' hw'
        exact h i (by omega) (by omega) w' hw'

theorem findFirstEdge_some (t : TrieNode) (m vid : Nat) (seq : Strand) :
    ∀ (n a : Nat) (w ov : Nat),
      findFirstEdge t m vid seq (offsetList a n) = some (w, ov) →
      ∃ i, a ≤ i ∧ i < a + n ∧ t.search (seq.drop i) m = some w ∧ w ≠ vid ∧
        ov = seq.length - i ∧
        (∀ j, a ≤ j → j < i → ∀ w', t.search (seq.drop j) m = some w' → w' = vid) := by
  intro n
  induction n with
  | zero =>
    intro a w ov h
    cases h
  | succ n ihn =>
    intro a w ov h
    rw [offsetList] at h
    cases hs : t.search (seq.drop a) m with
    | some w0 =>
      rw [findFirstEdge_cons_some t m vid seq a _ w0 hs] at h
      by_cases hw0 : w0 ≠ vid
      · rw [if_pos hw0] at h
        obtain ⟨rfl, rfl⟩ : w0 = w ∧ seq.length - a = ov := by
          constructor <;> [exact congrArg Prod.fst (Option.some.inj h);
            exact congrArg Prod.snd (Option.some.inj h)]
        exact ⟨a, Nat.le_refl a, by omega, hs, hw0, rfl, fun j haj hja _ _ => by omega⟩
      · rw [if_neg hw0] at h
        push_neg at hw0
        obtain ⟨i, hai, hia, hsi, hwv, hov, hfirst⟩ := ihn (a + 1) w ov h
        refine ⟨i, by omega, by omega, hsi, hwv, hov, fun j haj hji w' hw' => ?_⟩
        rcases Nat.eq_or_lt_of_le haj with rfl | hlt
        · rw [hs] at hw'
          obtain rfl : w0 = w' := by simpa using hw'
          exact hw0
        · exact hfirst j hlt hji w' hw'
    | none =>
      rw [findFirstEdge_cons_none t m vid seq a _ hs] at h
      obtain ⟨i, hai, hia, hsi, hwv, hov, hfirst⟩ := ihn (a + 1) w ov h
      refine ⟨i, by omega, by omega, hsi, hwv, hov, fun j haj hji w' hw' => ?_⟩
      rcases Nat.eq_or_lt_of_le haj with rfl | hlt
      · rw [hs] at hw'
        cases hw'
      · exact hfirst j hlt hji w' hw'

/-! ### Claim C10 -/

/-- Claim C10: for every trie built by `Graph.load_from_strands`, every query
string `q` and every mismatch budget `m`, if `search(q, m)` returns a vertex
then that vertex's sequence is at least `len(q)` symbols long and its first
`len(q)` symbols differ from `q` in at most `m` positions. -/
theorem C10_search_hit_approximates_query (strands : List Strand) (m : Nat) (q : Strand)
    (v : Nat) (h : (trieOf strands).search q m = some v) :
    ∃ gv, gv ∈ (Graph.loadFromStrands strands m).vertices ∧ gv.vid = v ∧
      q.length ≤ gv.sequence.length ∧
      hamming (gv.sequence.take q.length) q ≤ m := by
  obtain ⟨-, -, -, -, hwf, -, -, -⟩ := phase1_inv strands
  obtain ⟨q', s, hvs, hpre, hlen, hham⟩ :=
    search_wf (fun k => lookupId k (regsOf strands)) m q (trieOf strands) [] v hwf h
  rw [List.nil_append] at hpre
  have hmem : (v, s) ∈ regsOf strands := lookupId_mem v s (regsOf strands) hvs
  refine ⟨⟨v, s,
      (findFirstEdge (trieOf strands) m v s
        (offsetList 1 (s.length - 2 * log4floor strands.length - 1))).toList⟩, ?_, rfl, ?_, ?_⟩
  · rw [loadFromStrands_vertices]
    exact List.mem_map.mpr ⟨(v, s), hmem, rfl⟩
  · calc q.length = q'.length := hlen.symm
      _ ≤ s.length := hpre.length_le
  · obtain ⟨tl, rfl⟩ := hpre
    show hamming ((q' ++ tl).take q.length) q ≤ m
    rw [← hlen, List.take_left]
    exact hham

/-- Witness for C10 at a concrete input. -/
theorem C10_witness :
    ∃ gv, gv ∈ (Graph.loadFromStrands [[Base.A, Base.C]] 0).vertices ∧ gv.vid = 0 ∧
      ([Base.A] : Strand).length ≤ gv.sequence.length ∧
      hamming (gv.sequence.take ([Base.A] : Strand).length) [Base.A] ≤ 0 :=
  C10_search_hit_approximates_query [[Base.A, Base.C]] 0 [Base.A] 0 (by decide)

/-! ### Claim C5 -/

/-- Counterexample to claim C5: `CGT` is a suffix of the single inserted read
`ACGT`, yet a zero-mismatch search for it returns none — the index stores the
reads' prefixes, not their suffixes. -/
theorem C5_counterexample :
    ([Base.C, Base.G, Base.T] : Strand) <:+ [Base.A, Base.C, Base.G, Base.T] ∧
    [Base.A, Base.C, Base.G, Base.T] ∈ ([[Base.A, Base.C, Base.G, Base.T]] : List Strand) ∧
    (trieOf [[Base.A, Base.C, Base.G, Base.T]]).search [Base.C, Base.G, Base.T] 0 = none := by
  decide

/-- Amended claim C5: the index maps every inserted string and all of its
prefixes (not suffixes) to a vertex: for every inserted read and every prefix
of it, a zero-mismatch search returns a vertex rather than none. -/
theorem C5_amended_prefix_lookup (strands : List Strand) (r p : Strand)
    (hr : r ∈ strands) (hp : p <+: r) :
    ∃ v, (trieOf strands).search p 0 = some v := by
  obtain ⟨-, -, -, hall, -, -, hhp, -⟩ := phase1_inv strands
  have hne : strands ≠ [] := by
    intro h
    rw [h] at hr
    cases hr
  exact search_of_hasPath p (trieOf strands) (hall hne) ((hhp p).mpr (Or.inr ⟨r, hr, hp⟩))

/-- Witness for the amended C5 at a concrete input. -/
theorem C5_witness : ∃ v, (trieOf [[Base.A, Base.G]]).search [Base.A] 0 = some v :=
  C5_amended_prefix_lookup [[Base.A, Base.G]] [Base.A, Base.G] [Base.A] (by decide) (by decide)

/-! ### Claim C6 -/

/-- Counterexample to claim C6: with reads `ACGT` then `AC`, the read `AC` was
inserted, a zero-mismatch search for it succeeds, but the returned vertex is
`ACGT`'s vertex; no vertex of the graph has sequence `AC`, so the search does
not return the read's own vertex. -/
theorem C6_counterexample :
    [Base.A, Base.C] ∈ ([[Base.A, Base.C, Base.G, Base.T], [Base.A, Base.C]] : List Strand) ∧
    (trieOf [[Base.A, Base.C, Base.G, Base.T], [Base.A, Base.C]]).search [Base.A, Base.C] 0
      = some 0 ∧
    (∀ gv ∈ (Graph.loadFromStrands [[Base.A, Base.C, Base.G, Base.T], [Base.A, Base.C]]
        0).vertices, gv.sequence ≠ [Base.A, Base.C]) := by
  decide

/-- Amended claim C6: for every read whose insertion created a vertex — that
is, for every vertex registered in the graph — a zero-mismatch search for its
exact sequence returns precisely that vertex.  (Reads that are duplicates or
prefixes of an earlier read create no vertex of their own; searching them
returns the earlier anchored vertex.) -/
theorem C6_amended_search_own_vertex (strands : List Strand) (m : Nat) (gv : Vertex)
    (h : gv ∈ (Graph.loadFromStrands strands m).vertices) :
    (trieOf strands).search gv.sequence 0 = some gv.vid := by
  rw [loadFromStrands_vertices] at h
  obtain ⟨p, hp, rfl⟩ := List.mem_map.mp h
  obtain ⟨-, -, -, -, -, -, -, hsearch⟩ := phase1_inv strands
  exact hsearch p.1 p.2 hp

/-- Witness for the amended C6 at a concrete input. -/
theorem C6_witness : (trieOf [[Base.G, Base.T]]).search [Base.G, Base.T] 0 = some 0 :=
  C6_amended_search_own_vertex [[Base.G, Base.T]] 0 ⟨0, [Base.G, Base.T], []⟩ (by decide)

/-! ### Claim C2 -/

/-- Counterexample to claim C2: in the trie of the single read `AC`, searching
`AT` with zero mismatches walks to the `A` node, cannot descend on `T`, and
returns none — even though that node anchors vertex 0 via its extra
reference.  The claim would require the anchored vertex to be returned. -/
theorem C2_counterexample :
    (trieOf [[Base.A, Base.C]]).search [Base.A, Base.T] 0 = none ∧
    ((trieOf [[Base.A, Base.C]]).child Base.A).child Base.T = .nil ∧
    ((trieOf [[Base.A, Base.C]]).child Base.A).extraOf = some 0 := by
  decide

/-- Amended claim C2: when search cannot descend (no child for the next query
symbol) and no mismatches remain, it returns none unconditionally, whether or
not the node anchors a vertex; the anchored vertex is returned only when the
query string is exhausted at a node. -/
theorem C2_amended_stuck_returns_none (t : TrieNode) (b : Base) (rest : Strand) (m : Nat)
    (h : t.child b = .nil) :
    t.search (b :: rest) 0 = none ∧ t.search [] m = t.extraOf :=
  ⟨search_stuck_zero t b rest h, search_nil_query t m⟩

/-- Witness for the amended C2 at a concrete input. -/
theorem C2_witness :
    (trieOf [[Base.C]]).search [Base.A] 0 = none ∧
    (trieOf [[Base.C]]).search [] 5 = (trieOf [[Base.C]]).extraOf :=
  C2_amended_stuck_returns_none (trieOf [[Base.C]]) Base.A [] 5 (by decide)

/-! ### Claim C1 -/

/-- Counterexample to claim C1: with reads `AAAC`, `AATT` and a mismatch
budget of 1, the graph records the edge (`AATT` → `AAAC`, overlap 1), but the
last symbol of `AATT` is `T` while the first symbol of `AAAC` is `A` — the
claimed exact equality of the overlapping segments fails once the budget is
positive. -/
theorem C1_counterexample :
    ∃ src ∈ (Graph.loadFromStrands [[Base.A, Base.A, Base.A, Base.C],
        [Base.A, Base.A, Base.T, Base.T]] 1).vertices,
      ∃ e ∈ src.connectedVertices,
        ∃ tgt ∈ (Graph.loadFromStrands [[Base.A, Base.A, Base.A, Base.C],
            [Base.A, Base.A, Base.T, Base.T]] 1).vertices,
          tgt.vid = e.1 ∧
          tgt.sequence.take e.2 ≠ src.sequence.drop (src.sequence.length - e.2) := by
  decide

/-- Amended claim C1: every recorded edge (source, target, overlap) has a
positive overlap bounded by both sequence lengths, and the first `overlap`
symbols of the target differ from the last `overlap` symbols of the source in
at most `allow_mis_matches` positions — with exact equality when the budget
is zero. -/
theorem C1_amended_edge_overlap (strands : List Strand) (m : Nat) (src : Vertex)
    (w ov : Nat) (hsrc : src ∈ (Graph.loadFromStrands strands m).vertices)
    (hedge : (w, ov) ∈ src.connectedVertices) :
    ∃ tgt, tgt ∈ (Graph.loadFromStrands strands m).vertices ∧ tgt.vid = w ∧
      0 < ov ∧ ov ≤ src.sequence.length ∧ ov ≤ tgt.sequence.length ∧
      hamming (tgt.sequence.take ov) (src.sequence.drop (src.sequence.length - ov)) ≤ m ∧
      (m = 0 → tgt.sequence.take ov = src.sequence.drop (src.sequence.length - ov)) := by
  obtain ⟨hedges, hreg⟩ := edges_of_mem_vertices strands m src hsrc
  rw [hedges] at hedge
  have hffe : findFirstEdge (trieOf strands) m src.vid src.sequence
      (offsetList 1 (src.sequence.length - 2 * log4floor strands.length - 1))
      = some (w, ov) := by
    cases hcase : findFirstEdge (trieOf strands) m src.vid src.sequence
        (offsetList 1 (src.sequence.length - 2 * log4floor strands.length - 1)) with
    | none =>
      rw [hcase] at hedge
      cases hedge
    | some e =>
      rw [hcase] at hedge
      obtain rfl : (w, ov) = e := by simpa using hedge
      rfl
  obtain ⟨i, h1i, hiub, hsearch, hwne, hov, -⟩ :=
    findFirstEdge_some (trieOf strands) m src.vid src.sequence
      (src.sequence.length - 2 * log4floor strands.length - 1) 1 w ov hffe
  obtain ⟨-, -, -, -, hwf, -, -, -⟩ := phase1_inv strands
  obtain ⟨q', s, hvs, hpre, hlen, hham⟩ :=
    search_wf (fun k => lookupId k (regsOf strands)) m (src.sequence.drop i) (trieOf strands)
      [] w hwf hsearch
  rw [List.nil_append] at hpre
  have hmem : (w, s) ∈ regsOf strands := lookupId_mem w s (regsOf strands) hvs
  have hilen : i < src.sequence.length := by
    rw [List.length_drop] at hlen
    omega
  have hovlen : q'.length = ov := by
    rw [List.length_drop] at hlen
    omega
  have hsub : src.sequence.length - ov = i := by omega
  have hslen : ov ≤ s.length := by
    have := hpre.length_le
    omega
  refine ⟨⟨w, s,
      (findFirstEdge (trieOf strands) m w s
        (offsetList 1 (s.length - 2 * log4floor strands.length - 1))).toList⟩, ?_, rfl,
      by omega, by omega, by simpa using hslen, ?_, ?_⟩
  · rw [loadFromStrands_vertices]
    exact List.mem_map.mpr ⟨(w, s), hmem, rfl⟩
  · show hamming (s.take ov) (src.sequence.drop (src.sequence.length - ov)) ≤ m
    rw [hsub]
    obtain ⟨tl, rfl⟩ := hpre
    rw [← hovlen, List.take_left]
    exact hham
  · intro hm0
    subst hm0
    show s.take ov = src.sequence.drop (src.sequence.length - ov)
    rw [hsub]
    obtain ⟨tl, rfl⟩ := hpre
    rw [← hovlen, List.take_left]
    refine eq_of_hamming_zero q' (src.sequence.drop i) ?_ (Nat.le_zero.mp hham)
    rw [List.length_drop]
    omega

/-- Witness for the amended C1 at a concrete input. -/
theorem C1_witness :
    ∃ tgt, tgt ∈ (Graph.loadFromStrands [[Base.A, Base.A, Base.A, Base.C],
        [Base.A, Base.A, Base.T, Base.T]] 1).vertices ∧ tgt.vid = 0 ∧
      0 < 1 ∧ 1 ≤ ([Base.A, Base.A, Base.T, Base.T] : Strand).length ∧
      1 ≤ tgt.sequence.length ∧
      hamming (tgt.sequence.take 1)
        (([Base.A, Base.A, Base.T, Base.T] : Strand).drop
          (([Base.A, Base.A, Base.T, Base.T] : Strand).length - 1)) ≤ 1 ∧
      (1 = 0 → tgt.sequence.take 1
        = ([Base.A, Base.A, Base.T, Base.T] : Strand).drop
            (([Base.A, Base.A, Base.T, Base.T] : Strand).length - 1)) :=
  C1_amended_edge_overlap [[Base.A, Base.A, Base.A, Base.C],
    [Base.A, Base.A, Base.T, Base.T]] 1
    ⟨1, [Base.A, Base.A, Base.T, Base.T], [(0, 1)]⟩ 0 1 (by decide) (by decide)

/-! ### Claim C3 -/

/-- Counterexample to claim C3: with the four reads `GGGG, CCCC, TTAC, ACGT`
and budget 0, the code's scan for `TTAC` tries only offset 1 — the window
`range(1, 4 - 2*int(log4(4)))` — and records no edge, while the spec's window
"offsets 1 through `len - 2*log4(N)`" includes offset 2, where the suffix `AC`
matches `ACGT` and would record the edge (ACGT, overlap 2). -/
theorem C3_counterexample :
    (∃ gv ∈ (Graph.loadFromStrands [[Base.G, Base.G, Base.G, Base.G],
        [Base.C, Base.C, Base.C, Base.C], [Base.T, Base.T, Base.A, Base.C],
        [Base.A, Base.C, Base.G, Base.T]] 0).vertices,
      gv.vid = 2 ∧ gv.sequence = [Base.T, Base.T, Base.A, Base.C] ∧
      gv.connectedVertices = []) ∧
    specFindEdge (trieOf [[Base.G, Base.G, Base.G, Base.G],
        [Base.C, Base.C, Base.C, Base.C], [Base.T, Base.T, Base.A, Base.C],
        [Base.A, Base.C, Base.G, Base.T]]) 0 2 [Base.T, Base.T, Base.A, Base.C] 4
      = some (3, 2) := by
  decide

/-- Amended claim C3: for every vertex, the builder tries suffix offsets
`i = 1` up to but excluding `len(sequence) - 2*⌊log4(number of reads)⌋`, in
increasing order; the vertex has no edge exactly when every offset in that
window either misses or returns the vertex itself, and a recorded edge
`(w, ov)` comes from the first offset `i` in the window whose search returns a
vertex other than the source, with `ov = len(sequence) - i`. -/
theorem C3_amended_first_match_window (strands : List Strand) (m : Nat) (gv : Vertex)
    (h : gv ∈ (Graph.loadFromStrands strands m).vertices) :
    (gv.connectedVertices = [] ↔
      ∀ i, 1 ≤ i → i < gv.sequence.length - 2 * log4floor strands.length →
        ∀ w, (trieOf strands).search (gv.sequence.drop i) m = some w → w = gv.vid) ∧
    (∀ w ov, (w, ov) ∈ gv.connectedVertices →
      ∃ i, 1 ≤ i ∧ i < gv.sequence.length - 2 * log4floor strands.length ∧
        (trieOf strands).search (gv.sequence.drop i) m = some w ∧ w ≠ gv.vid ∧
        ov = gv.sequence.length - i ∧
        (∀ j, 1 ≤ j → j < i →
          ∀ w', (trieOf strands).search (gv.sequence.drop j) m = some w' → w' = gv.vid)) := by
  obtain ⟨hedges, hreg⟩ := edges_of_mem_vertices strands m gv h
  constructor
  · rw [hedges, toList_eq_nil_iff]
    rw [findFirstEdge_none_iff (trieOf strands) m gv.vid gv.sequence
      (gv.sequence.length - 2 * log4floor strands.length - 1) 1]
    constructor
    · intro hnone i h1i hiw w hw
      exact hnone i h1i (by omega) w hw
    · intro hnone i h1i hiw w hw
      exact hnone i h1i (by omega) w hw
  · intro w ov hedge
    rw [hedges] at hedge
    have hffe : findFirstEdge (trieOf strands) m gv.vid gv.sequence
        (offsetList 1 (gv.sequence.length - 2 * log4floor strands.length - 1))
        = some (w, ov) := by
      cases hcase : findFirstEdge (trieOf strands) m gv.vid gv.sequence
          (offsetList 1 (gv.sequence.length - 2 * log4floor strands.length - 1)) with
      | none =>
        rw [hcase] at hedge
        cases hedge
      | some e =>
        rw [hcase] at hedge
        obtain rfl : (w, ov) = e := by simpa using hedge
        rfl
    obtain ⟨i, h1i, hiub, hsearch, hwne, hov, hfirst⟩ :=
      findFirstEdge_some (trieOf strands) m gv.vid gv.sequence
        (gv.sequence.length - 2 * log4floor strands.length - 1) 1 w ov hffe
    exact ⟨i, h1i, by omega, hsearch, hwne, hov,
      fun j h1j hji w' hw' => hfirst j h1j hji w' hw'⟩

/-- Witness for the amended C3 at a concrete input. -/
theorem C3_witness :
    (([] : List (Nat × Nat)) = [] ↔
      ∀ i, 1 ≤ i → i < ([Base.G, Base.G, Base.G, Base.G] : Strand).length
          - 2 * log4floor ([[Base.G, Base.G, Base.G, Base.G]] : List Strand).length →
        ∀ w, (trieOf [[Base.G, Base.G, Base.G, Base.G]]).search
            (([Base.G, Base.G, Base.G, Base.G] : Strand).drop i) 0 = some w → w = 0) ∧
    (∀ w ov, (w, ov) ∈ ([] : List (Nat × Nat)) →
      ∃ i, 1 ≤ i ∧ i < ([Base.G, Base.G, Base.G, Base.G] : Strand).length
          - 2 * log4floor ([[Base.G, Base.G, Base.G, Base.G]] : List Strand).length ∧
        (trieOf [[Base.G, Base.G, Base.G, Base.G]]).search
          (([Base.G, Base.G, Base.G, Base.G] : Strand).drop i) 0 = some w ∧ w ≠ 0 ∧
        ov = ([Base.G, Base.G, Base.G, Base.G] : Strand).length - i ∧
        (∀ j, 1 ≤ j → j < i →
          ∀ w', (trieOf [[Base.G, Base.G, Base.G, Base.G]]).search
              (([Base.G, Base.G, Base.G, Base.G] : Strand).drop j) 0 = some w' → w' = 0)) :=
  C3_amended_first_match_window [[Base.G, Base.G, Base.G, Base.G]] 0
    ⟨0, [Base.G, Base.G, Base.G, Base.G], []⟩ (by decide)

/-! ### Claim C8 -/

/-- Claim C8: building from an empty read collection yields a graph with an
empty vertex set, and assembling that graph returns an empty string without
raising any error (all operations are total and return the listed values). -/
theorem C8_empty_reads (m minOverlap inComingLinksMin : Nat) :
    (Graph.loadFromStrands [] m).vertices = [] ∧
    (Graph.loadFromStrands [] m).getSequencedResult minOverlap inComingLinksMin = [] :=
  ⟨rfl, rfl⟩

/-! ### Claim C9 -/

/-- Counterexample to claim C9: on a malformed input — a single one-symbol
read, far shorter than any useful search window — graph construction does not
fail with a validation error: it completes normally, produces a vertex for
the read, and the assembler happily returns the read itself. -/
theorem C9_counterexample :
    (Graph.loadFromStrands [[Base.A]] 0).vertices = [⟨0, [Base.A], []⟩] ∧
    (Graph.loadFromStrands [[Base.A]] 0).getSequencedResult 7 40 = [Base.A] := by
  decide

/-- Amended claim C9: the core performs no input validation at all.  An empty
read collection and reads shorter than the search window are processed
silently — the empty collection yields an empty graph, and a too-short read
yields an ordinary edge-less vertex that the assembler returns unchanged
(with the source's default tuning parameters).  Symbols outside {A,C,G,T} are
not representable in this embedding; in Python they raise an uncategorized
`AttributeError`, not a categorized validation error. -/
theorem C9_amended_no_validation (m : Nat) :
    (Graph.loadFromStrands [] m).vertices = [] ∧
    (Graph.loadFromStrands [[Base.A]] m).vertices = [⟨0, [Base.A], []⟩] ∧
    (Graph.loadFromStrands [[Base.A]] m).getSequencedResult 7 40 = [Base.A] :=
  ⟨rfl, rfl, rfl⟩

/-! ### Claim C7 -/

/-- Counterexample to claim C7: the collection `[ACGT, AC, AC]` contains the
exact duplicate `AC`, has two distinct read strings, but produces only one
vertex — the read `AC` is a prefix of the earlier read `ACGT` and therefore
collapses onto `ACGT`'s vertex instead of creating its own. -/
theorem C7_counterexample :
    ([[Base.A, Base.C, Base.G, Base.T], [Base.A, Base.C],
        [Base.A, Base.C]] : List Strand).count [Base.A, Base.C] = 2 ∧
    (Graph.loadFromStrands [[Base.A, Base.C, Base.G, Base.T], [Base.A, Base.C],
        [Base.A, Base.C]] 0).vertices.length = 1 ∧
    ([[Base.A, Base.C, Base.G, Base.T], [Base.A, Base.C],
        [Base.A, Base.C]] : List Strand).toFinset.card = 2 := by
  decide

/-- The registered sequences are distinct and cover exactly the distinct read
strings, provided no read is a proper prefix of another. -/
theorem regs_distinct_of_no_prefix (strands : List Strand)
    (h : List.Pairwise (fun a b => b <+: a → b = a) strands) :
    ((regsOf strands).map Prod.snd).Nodup ∧
    ((regsOf strands).map Prod.snd).toFinset = strands.toFinset := by
  induction strands using List.reverseRecOn with
  | nil => exact ⟨List.nodup_nil, rfl⟩
  | append_singleton l s0 ihl =>
    have hpair : List.Pairwise (fun a b => b <+: a → b = a) l ∧
        (∀ a ∈ l, s0 <+: a → s0 = a) := by
      rw [List.pairwise_append] at h
      exact ⟨h.1, fun a ha hpre => h.2.2 a ha s0 (by simp) hpre⟩
    obtain ⟨hnd, htf⟩ := ihl hpair.1
    obtain ⟨ih1, ih2, ih3, ih4, ih5, ih6, ih7, ih8⟩ := phase1_inv l
    by_cases hl : l = []
    · subst hl
      rcases hI : TrieNode.insertStrand initTrie s0 none false 0 with ⟨t', res, fr'⟩
      obtain ⟨hres, -, -, -, -, -, -, -⟩ := insert_init_props (fun _ => none) s0 0 t' res fr' hI
      subst hres
      have hregs : regsOf ([] ++ [s0]) = [(0, s0)] := by
        show (phase1Step (initTrie, [], 0) s0).2.1 = _
        rw [phase1Step, hI]
        rfl
      rw [hregs]
      constructor
      · simp
      · simp
    · rcases hPl : phase1 l with ⟨t, regs, fr⟩
      have htl : trieOf l = t := by rw [trieOf, hPl]
      have hrl : regsOf l = regs := by rw [regsOf, hPl]
      rw [htl] at ih3 ih4 ih5 ih6 ih7
      rw [hrl] at ih5 hnd htf
      have hfl : (phase1 l).2.2 = fr := by rw [hPl]
      rw [hfl] at ih6
      rcases hI : TrieNode.insertStrand t s0 none false fr with ⟨t', res, fr'⟩
      obtain ⟨hnil', hall', hnone', hsome'⟩ :=
        insert_main (fun v => lookupId v regs) s0 t [] fr t' res fr' ih3 (ih4 hl) ih5 ih6 hI
      have hfold : phase1 (l ++ [s0]) = phase1Step (phase1 l) s0 := by
        rw [phase1, phase1, List.foldl_append]
        rfl
      cases res with
      | none =>
        obtain ⟨-, -, -, -, -, hpath'⟩ := hnone' rfl
        have hregs : regsOf (l ++ [s0]) = regs := by
          rw [regsOf, hfold, hPl]
          show (phase1Step (t, regs, fr) s0).2.1 = _
          rw [phase1Step, hI]
        have hs0l : s0 ∈ l := by
          rcases (ih7 s0).mp hpath' with rfl | ⟨r, hr, hpre⟩
          · obtain ⟨a, ha⟩ := List.exists_mem_of_ne_nil l hl
            have h2 : ([] : Strand) = a := hpair.2 a ha List.nil_prefix
            rw [h2]
            exact ha
          · have h2 : s0 = r := hpair.2 r hr hpre
            rw [h2]
            exact hr
        rw [hregs]
        refine ⟨hnd, ?_⟩
        rw [htf, List.toFinset_append]
        have : ({s0} : Finset Strand) ⊆ l.toFinset := by
          simp [List.mem_toFinset, hs0l]
        simp [Finset.union_eq_left.mpr this]
      | some w =>
        obtain ⟨hwfr, -, -, -, -, -, -, hpath'⟩ := hsome' w rfl
        have hregs : regsOf (l ++ [s0]) = regs ++ [(fr, s0)] := by
          rw [regsOf, hfold, hPl]
          show (phase1Step (t, regs, fr) s0).2.1 = _
          rw [phase1Step, hI, hwfr]
        have hs0l : s0 ∉ l := by
          intro hmem
          have : hasPath t s0 = true := (ih7 s0).mpr (Or.inr ⟨s0, hmem, List.prefix_rfl⟩)
          rw [hpath'] at this
          cases this
        have hs0r : s0 ∉ (regs.map Prod.snd) := by
          intro hmem
          have : s0 ∈ l.toFinset := by
            rw [← htf]
            exact List.mem_toFinset.mpr hmem
          exact hs0l (List.mem_toFinset.mp this)
        rw [hregs, List.map_append]
        constructor
        · rw [List.nodup_append]
          exact ⟨hnd, List.nodup_singleton s0, by simpa using hs0r⟩
        · rw [List.toFinset_append, List.toFinset_append, htf]
          rfl

/-- Amended claim C7: inserting the same string twice produces exactly one
vertex; more precisely, when no read is a proper prefix of another (in
particular when all reads have equal length), the vertex count equals the
number of distinct read strings.  Without that proviso a read that is a
proper prefix of an earlier read produces no vertex of its own. -/
theorem C7_amended_dedup_count (strands : List Strand) (m : Nat)
    (h : List.Pairwise (fun a b => b <+: a → b = a) strands) :
    (Graph.loadFromStrands strands m).vertices.length = strands.toFinset.card := by
  obtain ⟨hnd, htf⟩ := regs_distinct_of_no_prefix strands h
  rw [loadFromStrands_vertices, List.length_map, ← htf,
    List.toFinset_card_of_nodup hnd, List.length_map]

/-- Witness for the amended C7 at a concrete input: the same read twice gives
one vertex. -/
theorem C7_witness :
    (Graph.loadFromStrands [[Base.A], [Base.A]] 0).vertices.length
      = ([[Base.A], [Base.A]] : List Strand).toFinset.card :=
  C7_amended_dedup_count [[Base.A], [Base.A]] 0 (by decide)

/-! ### Claim C4 -/

/-- Fold invariant for the origin loop of `get_sequenced_result`: the best
sequence never shrinks, dominates the walk of every candidate origin already
processed, and is either the initial accumulator or the walk of some
processed candidate. -/
theorem gsr_fold_inv (g : Graph) (minOverlap inComingLinksMin : Nat) :
    ∀ (l : List Vertex) (acc : Strand),
      acc.length ≤ (l.foldl (gsrStep g minOverlap inComingLinksMin) acc).length ∧
      (∀ o ∈ l, g.incoming o.vid ≤ inComingLinksMin →
        (walkFrom g minOverlap g.vertices.length o o.sequence).length
          ≤ (l.foldl (gsrStep g minOverlap inComingLinksMin) acc).length) ∧
      (l.foldl (gsrStep g minOverlap inComingLinksMin) acc = acc ∨
        ∃ o, o ∈ l ∧ g.incoming o.vid ≤ inComingLinksMin ∧
          l.foldl (gsrStep g minOverlap inComingLinksMin) acc
            = walkFrom g minOverlap g.vertices.length o o.sequence) := by
  intro l
  induction l with
  | nil =>
    intro acc
    exact ⟨Nat.le_refl _, by simp, Or.inl rfl⟩
  | cons o rest ih =>
    intro acc
    rw [List.foldl_cons]
    by_cases hc : inComingLinksMin < g.incoming o.vid
    · have hstep : gsrStep g minOverlap inComingLinksMin acc o = acc := by
        rw [gsrStep, if_pos hc]
      rw [hstep]
      obtain ⟨iha, ihb, ihc⟩ := ih acc
      refine ⟨iha, ?_, ?_⟩
      · intro o' ho' hle
        rcases List.mem_cons.mp ho' with rfl | hmem
        · omega
        · exact ihb o' hmem hle
      · rcases ihc with heq | ⟨o', ho', hle, heq⟩
        · exact Or.inl heq
        · exact Or.inr ⟨o', List.mem_cons_of_mem o ho', hle, heq⟩
    · have hcle : g.incoming o.vid ≤ inComingLinksMin := Nat.le_of_not_lt hc
      by_cases hlen :
          acc.length < (walkFrom g minOverlap g.vertices.length o o.sequence).length
      · have hstep : gsrStep g minOverlap inComingLinksMin acc o
            = walkFrom g minOverlap g.vertices.length o o.sequence := by
          rw [gsrStep, if_neg hc]
          exact if_pos hlen
        rw [hstep]
        obtain ⟨iha, ihb, ihc⟩ := ih (walkFrom g minOverlap g.vertices.length o o.sequence)
        refine ⟨by omega, ?_, ?_⟩
        · intro o' ho' hle
          rcases List.mem_cons.mp ho' with rfl | hmem
          · exact iha
          · exact ihb o' hmem hle
        · rcases ihc with heq | ⟨o', ho', hle, heq⟩
          · exact Or.inr ⟨o, List.mem_cons_self o rest, hcle, heq⟩
          · exact Or.inr ⟨o', List.mem_cons_of_mem o ho', hle, heq⟩
      · have hstep : gsrStep g minOverlap inComingLinksMin acc o = acc := by
          rw [gsrStep, if_neg hc]
          exact if_neg hlen
        rw [hstep]
        obtain ⟨iha, ihb, ihc⟩ := ih acc
        refine ⟨iha, ?_, ?_⟩
        · intro o' ho' hle
          rcases List.mem_cons.mp ho' with rfl | hmem
          · omega
          · exact ihb o' hmem hle
        · rcases ihc with heq | ⟨o', ho', hle, heq⟩
          · exact Or.inl heq
          · exact Or.inr ⟨o', List.mem_cons_of_mem o ho', hle, heq⟩

/-- Claim C4: `get_sequenced_result` takes as candidate origins exactly the
vertices whose summed incoming overlap weight is within the ceiling; each
candidate's walk starts from the origin's full sequence, repeatedly appends
the target's sequence from the overlap offset on while an edge with
sufficient overlap exists and fewer than `len(vertices)` steps were taken
(`walkFrom`), and the returned string dominates every candidate's walk and is
itself the walk of some candidate (or empty). -/
theorem C4_longest_candidate_walk (g : Graph) (minOverlap inComingLinksMin : Nat)
    (o : Vertex) (ho : o ∈ g.vertices) (hin : g.incoming o.vid ≤ inComingLinksMin) :
    (walkFrom g minOverlap g.vertices.length o o.sequence).length
      ≤ (g.getSequencedResult minOverlap inComingLinksMin).length ∧
    (g.getSequencedResult minOverlap inComingLinksMin = [] ∨
      ∃ o', o' ∈ g.vertices ∧ g.incoming o'.vid ≤ inComingLinksMin ∧
        g.getSequencedResult minOverlap inComingLinksMin
          = walkFrom g minOverlap g.vertices.length o' o'.sequence) := by
  obtain ⟨-, hb, hc⟩ := gsr_fold_inv g minOverlap inComingLinksMin g.vertices []
  exact ⟨hb o ho hin, hc⟩

/-- Witness for C4 at a concrete two-read graph. -/
theorem C4_witness :
    (walkFrom (Graph.loadFromStrands [[Base.A, Base.C, Base.G, Base.T],
        [Base.G, Base.T, Base.A, Base.C]] 0) 2
      (Graph.loadFromStrands [[Base.A, Base.C, Base.G, Base.T],
        [Base.G, Base.T, Base.A, Base.C]] 0).vertices.length
      ⟨0, [Base.A, Base.C, Base.G, Base.T], [(1, 2)]⟩
      [Base.A, Base.C, Base.G, Base.T]).length
      ≤ ((Graph.loadFromStrands [[Base.A, Base.C, Base.G, Base.T],
          [Base.G, Base.T, Base.A, Base.C]] 0).getSequencedResult 2 40).length ∧
    ((Graph.loadFromStrands [[Base.A, Base.C, Base.G, Base.T],
        [Base.G, Base.T, Base.A, Base.C]] 0).getSequencedResult 2 40 = [] ∨
      ∃ o', o' ∈ (Graph.loadFromStrands [[Base.A, Base.C, Base.G, Base.T],
          [Base.G, Base.T, Base.A, Base.C]] 0).vertices ∧
        (Graph.loadFromStrands [[Base.A, Base.C, Base.G, Base.T],
          [Base.G, Base.T, Base.A, Base.C]] 0).incoming o'.vid ≤ 40 ∧
        (Graph.loadFromStrands [[Base.A, Base.C, Base.G, Base.T],
          [Base.G, Base.T, Base.A, Base.C]] 0).getSequencedResult 2 40
          = walkFrom (Graph.loadFromStrands [[Base.A, Base.C, Base.G, Base.T],
              [Base.G, Base.T, Base.A, Base.C]] 0) 2
              (Graph.loadFromStrands [[Base.A, Base.C, Base.G, Base.T],
                [Base.G, Base.T, Base.A, Base.C]] 0).vertices.length o' o'.sequence) :=
  C4_longest_candidate_walk (Graph.loadFromStrands [[Base.A, Base.C, Base.G, Base.T],
      [Base.G, Base.T, Base.A, Base.C]] 0) 2 40
    ⟨0, [Base.A, Base.C, Base.G, Base.T], [(1, 2)]⟩ (by decide) (by decide)

end GA
